import Mathlib

/-!
# Service-selection criteria (`pkg/services/criteria.go`)

A shallow embedding of the criteria validation, the port enumeration parser and
matcher, and the glob attribute wrapper, followed by the properties proved about
them.

Conventions of the embedding:

* a Go `string` / `[]byte` text is a `List Char`; map keys and error messages
  are `String`;
* a Go `int` is an `Int`; the only place where the machine width matters is
  `strconv.Atoi`, which saturates at the bounds of a 64-bit `int`;
* a Go `error` is an `Option String` (`none` is `nil`);
* a method with a pointer receiver that mutates it returns the new receiver
  together with its result;
* a Go `map[string]V` is the list of its entries in the order in which one
  `range` loop visits them. Go leaves that order unspecified, so a statement
  quantified over all lists covers every possible iteration order.
-/

namespace services

/-! ## Standard-library primitives used by the package -/

/-- The characters matched by `\s` in a Go regular expression: tab, newline,
form feed, carriage return and space. -/
def reSpaceChars : List Char := ['\t', '\n', '\x0c', '\r', ' ']

/-- The characters matched by `\d` in a Go regular expression. -/
def reDigitChars : List Char := ['0', '1', '2', '3', '4', '5', '6', '7', '8', '9']

/-- A character class: the alternation of the listed characters. -/
def anyOf (cs : List Char) : RegularExpression Char :=
  cs.foldr (fun c r => RegularExpression.char c + r) 0

/-- The regular expression `r+`. -/
def oneOrMore (r : RegularExpression Char) : RegularExpression Char :=
  r * RegularExpression.star r

/-- The regular expression `r?`. -/
def optional (r : RegularExpression Char) : RegularExpression Char :=
  1 + r

/-- Go `Regexp.MatchString` for a pattern anchored with `^` and `$`: the whole
text belongs to the language of the expression. -/
def MatchString (re : RegularExpression Char) (s : List Char) : Bool :=
  re.rmatch s

/-- Go `unicode.IsSpace`. -/
def unicodeIsSpace (c : Char) : Bool :=
  let n := c.toNat
  n == 0x09 || n == 0x0A || n == 0x0B || n == 0x0C || n == 0x0D || n == 0x20 ||
  n == 0x85 || n == 0xA0 || n == 0x1680 || (0x2000 ≤ n && n ≤ 0x200A) ||
  n == 0x2028 || n == 0x2029 || n == 0x202F || n == 0x205F || n == 0x3000

/-- Go `strings.TrimSpace`: drops the leading and the trailing white space. -/
def TrimSpace (s : List Char) : List Char :=
  ((s.dropWhile unicodeIsSpace).reverse.dropWhile unicodeIsSpace).reverse

/-- Go `strings.Split(s, sep)` for a one-character separator: the pieces of `s`
between the occurrences of `sep`; a text without separator is its only piece. -/
def Split (s : List Char) (sep : Char) : List (List Char) :=
  match s with
  | [] => [[]]
  | c :: cs =>
    if c = sep then [] :: Split cs sep
    else
      match Split cs sep with
      | [] => [[c]]
      | piece :: pieces => (c :: piece) :: pieces

/-- The two failures of `strconv.Atoi`. -/
inductive NumError where
  | badDigits
  | outOfRange
  deriving DecidableEq, Repr

/-- The largest Go `int` (64 bits). -/
def maxInt : Nat := 2 ^ 63 - 1

/-- The value of a run of decimal digits, most significant first. -/
def digitsValue (ds : List Char) : Nat :=
  ds.foldl (fun n ch => n * 10 + (ch.toNat - '0'.toNat)) 0

/-- Go `strconv.Atoi`: an optional sign followed by one or more decimal digits.
A malformed text gives `0` and an error; a value that does not fit in an `int`
gives the nearest bound and an error. -/
def Atoi (s : List Char) : Int × Option NumError :=
  match s with
  | [] => (0, some NumError.badDigits)
  | c :: rest =>
    let neg : Bool := c = '-'
    let body := if c = '-' ∨ c = '+' then rest else s
    if body = [] ∨ ¬ (body.all Char.isDigit) then (0, some NumError.badDigits)
    else
      let un := digitsValue body
      if neg = false ∧ un > maxInt then ((maxInt : Int), some NumError.outOfRange)
      else if neg = true ∧ un > maxInt + 1 then (-((maxInt : Int) + 1), some NumError.outOfRange)
      else (if neg then -(un : Int) else (un : Int), none)

/-- An interface value of `glob.Glob`: the only method used is `Match`. -/
structure Glob where
  Match : String → Bool

/-! ## Data model -/

/-- The allow-listed metadata attribute names. -/
def allowedAttributeNames : List String :=
  ["k8s_namespace", "k8s_pod_name", "k8s_deployment_name", "k8s_replicaset_name",
   "k8s_daemonset_name", "k8s_statefulset_name", "k8s_job_name", "k8s_cronjob_name",
   "k8s_owner_name"]

/-- One entry of a port enumeration; `End = 0` marks a single port. -/
structure PortRange where
  Start : Int
  End : Int
  deriving DecidableEq, Repr

/-- An enumeration of ports. -/
structure PortEnum where
  Ranges : List PortRange
  deriving DecidableEq, Repr

/-- A wrapper of an optional compiled glob; `none` is the `nil` interface. -/
structure GlobAttr where
  glob : Option Glob

/-- The attributes that select one service. The maps hold `*GlobAttr` values,
which may be `nil`. -/
structure Attributes where
  Name : String
  Namespace : String
  OpenPorts : PortEnum
  Path : GlobAttr
  Metadata : List (String × Option GlobAttr)
  PodLabels : List (String × Option GlobAttr)
  PodAnnotations : List (String × Option GlobAttr)

/-- A group of service definitions, in order of precedence. -/
abbrev DefinitionCriteria := List Attributes

/-! ## Port enumerations -/

def PortEnum.Len (p : PortEnum) : Nat :=
  p.Ranges.length

/-- The pattern `^\s*\d+\s*(-\s*\d+\s*)?(,\s*\d+\s*(-\s*\d+\s*)?)*$`: the part
`\s*\d+\s*(-\s*\d+\s*)?` that occurs twice in it. -/
def portEntryRe : RegularExpression Char :=
  RegularExpression.star (anyOf reSpaceChars) * oneOrMore (anyOf reDigitChars) *
    RegularExpression.star (anyOf reSpaceChars) *
    optional (RegularExpression.char '-' * RegularExpression.star (anyOf reSpaceChars) *
      oneOrMore (anyOf reDigitChars) * RegularExpression.star (anyOf reSpaceChars))

/-- The compiled pattern `validPortEnum`. -/
def validPortEnum : RegularExpression Char :=
  portEntryRe * RegularExpression.star (RegularExpression.char ',' * portEntryRe)

/-- The body of the loop of `UnmarshalText`: the range read from one
comma-separated entry. The conversion errors are dropped, as in the source. -/
def parseEntry (entry : List Char) : PortRange :=
  let ports := Split entry '-'
  let start := (Atoi (TrimSpace (ports.headD []))).1
  match ports with
  | _ :: second :: _ => { Start := start, End := (Atoi (TrimSpace second)).1 }
  | _ => { Start := start, End := 0 }

/-- The error text of a rejected port enumeration; `quote` stands for the `%q`
verb of `fmt`. -/
def invalidPortRange (quote : List Char → String) (val : List Char) : String :=
  "invalid port range " ++ quote val ++
    ". Must be a comma-separated list of numeric ports or port ranges (e.g. 8000-8999)"

/-- The method `(*PortEnum).UnmarshalText`: the receiver after the call and the
error returned. -/
def PortEnum.UnmarshalText (quote : List Char → String) (p : PortEnum) (text : List Char) :
    PortEnum × Option String :=
  if MatchString validPortEnum text = false then
    (p, some (invalidPortRange quote text))
  else
    ((Split text ',').foldl (fun q entry => { Ranges := q.Ranges ++ [parseEntry entry] }) p, none)

/-- The test made on one range by `Matches`. -/
def PortRange.holds (pr : PortRange) (port : Int) : Bool :=
  (pr.End == 0 && pr.Start == port) || (pr.End != 0 && pr.Start ≤ port && port ≤ pr.End)

/-- The method `(*PortEnum).Matches`. -/
def PortEnum.Matches (p : PortEnum) (port : Int) : Bool :=
  go p.Ranges
where
  go : List PortRange → Bool
    | [] => false
    | pr :: rest => if pr.holds port then true else go rest

/-! ## Glob attributes -/

def NewGlob (g : Option Glob) : GlobAttr :=
  { glob := g }

def GlobAttr.IsSet (p : GlobAttr) : Bool :=
  p.glob.isSome

/-- The method `(*GlobAttr).UnmarshalText`; `compile` stands for `glob.Compile`
and `quote` for the `%q` verb. -/
def GlobAttr.UnmarshalText (compile : List Char → Except String Glob)
    (quote : List Char → String) (p : GlobAttr) (text : List Char) :
    GlobAttr × Option String :=
  if text.length = 0 then ({ glob := none }, none)
  else
    match compile text with
    | Except.error err => (p, some ("invalid regular expression " ++ quote text ++ ": " ++ err))
    | Except.ok re => ({ glob := some re }, none)

/-- The method `(*GlobAttr).MatchString`. -/
def GlobAttr.MatchString (p : GlobAttr) (input : String) : Bool :=
  match p.glob with
  | none => true
  | some g => g.Match input

/-! ## Criteria -/

/-- The first test of the loop of `Validate`: the rule has no selection
criterion. -/
def Attributes.noCriteria (a : Attributes) : Bool :=
  a.OpenPorts.Len == 0 && !a.Path.IsSet && a.Metadata.length == 0 &&
    a.PodLabels.length == 0 && a.PodAnnotations.length == 0

/-- The loop of `Validate`, from index `i` on. -/
def validateFrom (i : Nat) : List Attributes → Option String
  | [] => none
  | a :: rest =>
    if a.noCriteria then
      some ("discovery.services[" ++ toString i ++
        "] should define at least one selection criteria")
    else
      match a.Metadata.find? (fun kv => decide (kv.1 ∉ allowedAttributeNames)) with
      | some kv => some ("unknown attribute in discovery.services[" ++ toString i ++ "]: " ++ kv.1)
      | none => validateFrom (i + 1) rest

/-- The method `DefinitionCriteria.Validate`. -/
def DefinitionCriteria.Validate (dc : DefinitionCriteria) : Option String :=
  validateFrom 0 dc

/-- The method `DefinitionCriteria.PortOfInterest`. -/
def DefinitionCriteria.PortOfInterest (dc : DefinitionCriteria) (port : Int) : Bool :=
  match dc with
  | [] => false
  | a :: rest =>
    if a.OpenPorts.Matches port then true else DefinitionCriteria.PortOfInterest rest port

/-! ## Vocabulary of the specification -/

/-- The rule has at least one discriminating criterion: a non-empty
`OpenPorts`, a set `Path`, or a non-empty `Metadata`, `PodLabels` or
`PodAnnotations` map. -/
def Attributes.hasCriterion (a : Attributes) : Prop :=
  a.OpenPorts.Ranges ≠ [] ∨ a.Path.glob.isSome = true ∨ a.Metadata ≠ [] ∨
    a.PodLabels ≠ [] ∨ a.PodAnnotations ≠ []

/-- The key is one of the nine allow-listed attribute names. -/
def allowListed (k : String) : Prop :=
  k = "k8s_namespace" ∨ k = "k8s_pod_name" ∨ k = "k8s_deployment_name" ∨
    k = "k8s_replicaset_name" ∨ k = "k8s_daemonset_name" ∨ k = "k8s_statefulset_name" ∨
    k = "k8s_job_name" ∨ k = "k8s_cronjob_name" ∨ k = "k8s_owner_name"

/-- The rule breaks one of the two requirements of `Validate`. -/
def Attributes.violates (a : Attributes) : Prop :=
  ¬ a.hasCriterion ∨ ∃ kv ∈ a.Metadata, ¬ allowListed kv.1

/-- A rule that selects by port only. -/
def portRule : Attributes :=
  { Name := "", Namespace := "", OpenPorts := { Ranges := [{ Start := 80, End := 0 }] },
    Path := { glob := none }, Metadata := [], PodLabels := [], PodAnnotations := [] }

/-- A rule that only carries a name and a namespace. -/
def namedRule : Attributes :=
  { Name := "svc", Namespace := "ns", OpenPorts := { Ranges := [] },
    Path := { glob := none }, Metadata := [], PodLabels := [], PodAnnotations := [] }

/-- A compiled glob that matches every input, such as `*`. -/
def anyGlob : Glob :=
  { Match := fun _ => true }

/-- A rule that selects by Kubernetes namespace only. -/
def namespaceRule : Attributes :=
  { Name := "", Namespace := "", OpenPorts := { Ranges := [] },
    Path := { glob := none },
    Metadata := [("k8s_namespace", some { glob := some anyGlob })], PodLabels := [],
    PodAnnotations := [] }

/-- A rule with a port and a metadata key outside the allow-list. -/
def unknownKeyRule : Attributes :=
  { Name := "", Namespace := "", OpenPorts := { Ranges := [{ Start := 80, End := 0 }] },
    Path := { glob := none }, Metadata := [("k8s_namespace", none), ("k8s_node", none)],
    PodLabels := [], PodAnnotations := [] }

/-- A white-space character of the port grammar: space, tab, newline, form feed
or carriage return. -/
def IsBlankChar (c : Char) : Prop :=
  c = ' ' ∨ c = '\t' ∨ c = '\n' ∨ c = '\x0c' ∨ c = '\r'

instance (c : Char) : Decidable (IsBlankChar c) := by
  unfold IsBlankChar; infer_instance

/-- An ASCII digit. -/
def IsDigitChar (c : Char) : Prop :=
  c = '0' ∨ c = '1' ∨ c = '2' ∨ c = '3' ∨ c = '4' ∨ c = '5' ∨ c = '6' ∨ c = '7' ∨
    c = '8' ∨ c = '9'

instance (c : Char) : Decidable (IsDigitChar c) := by
  unfold IsDigitChar; infer_instance

/-- A possibly empty run of white space. -/
def IsBlank (w : List Char) : Prop :=
  ∀ c ∈ w, IsBlankChar c

instance (w : List Char) : Decidable (IsBlank w) := by
  unfold IsBlank; infer_instance

/-- A run of one or more ASCII digits. -/
def IsDigitRun (d : List Char) : Prop :=
  d ≠ [] ∧ ∀ c ∈ d, IsDigitChar c

instance (d : List Char) : Decidable (IsDigitRun d) := by
  unfold IsDigitRun; infer_instance

/-- A digit run with the white space allowed around it. -/
structure PaddedRun where
  before : List Char
  digits : List Char
  after : List Char

def PaddedRun.text (r : PaddedRun) : List Char :=
  r.before ++ r.digits ++ r.after

def PaddedRun.wellFormed (r : PaddedRun) : Prop :=
  IsBlank r.before ∧ IsDigitRun r.digits ∧ IsBlank r.after

/-- One entry of the port grammar: a digit run, optionally followed by `-` and
a second digit run, each with optional white space around it. -/
structure PortEntry where
  first : PaddedRun
  second : Option PaddedRun

def PortEntry.text (e : PortEntry) : List Char :=
  match e.second with
  | none => e.first.text
  | some r => e.first.text ++ '-' :: r.text

def PortEntry.wellFormed (e : PortEntry) : Prop :=
  e.first.wellFormed ∧ ∀ r, e.second = some r → r.wellFormed

/-- The text is a non-empty comma-separated list of entries of the port
grammar. -/
def IsPortList (text : List Char) : Prop :=
  ∃ es : List PortEntry, es ≠ [] ∧ (∀ e ∈ es, e.wellFormed) ∧
    text = List.intercalate [','] (es.map PortEntry.text)

/-- The range that an entry denotes: the values of its digit runs as
`strconv.Atoi` reads them, with `End = 0` when there is no second run. -/
def PortEntry.range (e : PortEntry) : PortRange :=
  match e.second with
  | none => { Start := (Atoi e.first.digits).1, End := 0 }
  | some r => { Start := (Atoi e.first.digits).1, End := (Atoi r.digits).1 }

/-- The `%q` rendering of a text that needs no escaping: the text between
double quotes. -/
def plainQuote (s : List Char) : String :=
  String.mk ('"' :: s ++ ['"'])

/-- The decimal numeral of a non-negative integer. -/
def decimal (n : Int) : List Char :=
  Nat.toDigits 10 n.toNat

/-- The printed form of a range: `Start` when `End = 0`, `Start-End`
otherwise. -/
def renderRange (r : PortRange) : List Char :=
  if r.End = 0 then decimal r.Start else decimal r.Start ++ '-' :: decimal r.End

/-- The printed form of a list of ranges: the entries joined with commas. -/
def renderPorts (rs : List PortRange) : List Char :=
  List.intercalate [','] (rs.map renderRange)

/-- The entry of the port grammar that `renderRange` writes. -/
def entryOfRange (r : PortRange) : PortEntry :=
  { first := { before := [], digits := decimal r.Start, after := [] },
    second := if r.End = 0 then none
      else some { before := [], digits := decimal r.End, after := [] } }

/-- The entry `N-M` written without white space. -/
def dashEntry (n m : List Char) : PortEntry :=
  { first := { before := [], digits := n, after := [] },
    second := some { before := [], digits := m, after := [] } }

/-- The text without its white-space characters (space, tab, newline, form
feed, carriage return). -/
def stripBlank (t : List Char) : List Char :=
  t.filter (fun c => !decide (IsBlankChar c))

def PaddedRun.strip (r : PaddedRun) : PaddedRun :=
  { before := [], digits := r.digits, after := [] }

/-- The entry without the white space around its digit runs. -/
def PortEntry.strip (e : PortEntry) : PortEntry :=
  { first := e.first.strip, second := e.second.map PaddedRun.strip }

/-- A run of twenty nines: a numeral above the largest `int`. -/
def twentyNines : List Char :=
  List.replicate 20 '9'

end services

/-! # Route classification (`pkg/transform`)

The code of the route classifier is not among the sources, so the classifier
below follows the specification; the tests give the spelling of a named
parameter and of the wildcard token. Texts are `List Char`, as above. -/

namespace transform

/-- Modelled from the spec: the unmatch policy of a route configuration, whose
declaration is missing. The four recognised values (`unset`, `wildcard`,
`literal`, `heuristic`) carry the names the tests use; `other v` is a text `v`
that is none of them, such as `""` or `"invalid_value"`. -/
inductive UnmatchType where
  | UnmatchUnset
  | UnmatchWildcard
  | UnmatchPath
  | UnmatchHeuristic
  | other (value : String)
  deriving DecidableEq, Repr

/-- Modelled from the spec: the route configuration `RoutesConfig`, whose
declaration is missing: ordered path templates, unmatch policy and wildcard
character. -/
structure RoutesConfig where
  Unmatch : UnmatchType
  Patterns : List (List Char)
  WildcardChar : List Char
  deriving DecidableEq, Repr

/-- Modelled from the spec: a request record `request.Span`, whose declaration
is missing, with the fields the tests set: path, route and kind (the field
`Type` of the tests). -/
structure Span where
  Path : List Char
  Route : List Char
  Kind : Nat
  deriving DecidableEq, Repr

/-- Modelled from the spec: the segments of a path or of a template, the pieces
between the `/` characters. The splitter of the classifier is missing. -/
def segments (path : List Char) : List (List Char) :=
  services.Split path '/'

/-- Modelled from the spec: a named-parameter segment of a template. The
template parser is missing; the two spellings are the ones of the tests, `:id`
and `{id}`. -/
def isParameter (seg : List Char) : Bool :=
  seg.head? == some ':' || (seg.head? == some '{' && seg.getLast? == some '}')

/-- Modelled from the spec: template segments against path segments, one by
one: a parameter matches any segment, a literal only itself, and both lists end
together. The matcher of the classifier is missing. -/
def segmentsMatch : List (List Char) → List (List Char) → Bool
  | [], [] => true
  | t :: ts, s :: ss => (isParameter t || t == s) && segmentsMatch ts ss
  | _, _ => false

/-- Modelled from the spec: a template matches a concrete path. -/
def templateMatches (template path : List Char) : Bool :=
  segmentsMatch (segments template) (segments path)

/-- Modelled from the spec: the first template, in list order, that matches the
path. The lookup of the classifier is missing. -/
def findTemplate (patterns : List (List Char)) (path : List Char) : Option (List Char) :=
  patterns.find? (fun t => templateMatches t path)

/-- Modelled from the spec: the fixed catch-all token of the `wildcard` policy;
the tests give its text. -/
def wildcardRoute : List Char :=
  ['/', '*', '*']

/-- Modelled from the spec: the generalised shape of a path, each segment that
looks like a generated identifier replaced by the wildcard character. The
generaliser is missing; its test of a segment is the parameter `looksGenerated`. -/
def generalize (looksGenerated : List Char → Bool) (wildcardChar path : List Char) :
    List Char :=
  List.intercalate ['/']
    ((segments path).map (fun seg => if looksGenerated seg then wildcardChar else seg))

/-- Modelled from the spec: the state of a route classifier, whose code is
missing: its configuration and the memo table of the heuristic policy, from
generalised shape to route label. -/
structure Router where
  config : RoutesConfig
  memo : List (List Char × List Char)
  deriving DecidableEq, Repr

/-- Modelled from the spec: the constructor `RoutesProvider`, whose code is
missing. It accepts every configuration and starts with an empty memo table. -/
def RoutesProvider (cfg : RoutesConfig) : Except String Router :=
  Except.ok { config := cfg, memo := [] }

/-- Modelled from the spec: the route given to a path that no template matches,
and the classifier afterwards. The dispatch is missing; a value that is not
recognised is treated like `unset`. -/
def Router.unmatched (looksGenerated : List Char → Bool) (r : Router) (path : List Char) :
    List Char × Router :=
  match r.config.Unmatch with
  | UnmatchType.UnmatchUnset => ([], r)
  | UnmatchType.UnmatchWildcard => (wildcardRoute, r)
  | UnmatchType.UnmatchPath => (path, r)
  | UnmatchType.UnmatchHeuristic =>
    let shape := generalize looksGenerated r.config.WildcardChar path
    match r.memo.lookup shape with
    | some label => (label, r)
    | none => (shape, { r with memo := (shape, shape) :: r.memo })
  | UnmatchType.other _ => ([], r)

/-- Modelled from the spec: the classification of one record, whose code is
missing. A route set upstream is kept; otherwise the first matching template
is the route; otherwise the unmatch policy decides. -/
def Router.classify (looksGenerated : List Char → Bool) (r : Router) (s : Span) :
    Span × Router :=
  if s.Route ≠ [] then (s, r)
  else
    match findTemplate r.config.Patterns s.Path with
    | some t => ({ s with Route := t }, r)
    | none =>
      let res := r.unmatched looksGenerated s.Path
      ({ s with Route := res.1 }, res.2)

/-- Modelled from the spec: the classification of a batch, record by record, in
order. -/
def Router.classifyBatch (looksGenerated : List Char → Bool) (r : Router) :
    List Span → List Span × Router
  | [] => ([], r)
  | s :: rest =>
    let one := r.classify looksGenerated s
    let more := Router.classifyBatch looksGenerated one.2 rest
    (one.1 :: more.1, more.2)

/-- The template fits the path: same number of segments, and every template
segment is a named parameter or equal to the path segment at its place. -/
def TemplateFits (template path : List Char) : Prop :=
  (segments template).length = (segments path).length ∧
    ∀ (i : Nat) (a b : List Char),
      (segments template)[i]? = some a → (segments path)[i]? = some b →
        isParameter a = true ∨ a = b

/-- The configuration of the tests: the single template `/user/:id`. -/
def userConfig (unmatch : UnmatchType) : RoutesConfig :=
  { Unmatch := unmatch, Patterns := ["/user/:id".toList], WildcardChar := ['*'] }

/-- The classifier of the tests, freshly built. -/
def userRouter (unmatch : UnmatchType) : Router :=
  { config := userConfig unmatch, memo := [] }

end transform

namespace services

/-! ## Criteria validation -/

theorem mem_allowedAttributeNames_iff (k : String) :
    k ∈ allowedAttributeNames ↔ allowListed k := by
  simp [allowedAttributeNames, allowListed]

theorem noCriteria_eq_false_iff (a : Attributes) :
    a.noCriteria = false ↔ a.hasCriterion := by
  unfold Attributes.noCriteria Attributes.hasCriterion PortEnum.Len GlobAttr.IsSet
  cases h1 : a.OpenPorts.Ranges <;> cases h2 : a.Path.glob <;> cases h3 : a.Metadata <;>
    cases h4 : a.PodLabels <;> cases h5 : a.PodAnnotations <;> simp

theorem noCriteria_eq_true_iff (a : Attributes) :
    a.noCriteria = true ↔ ¬ a.hasCriterion := by
  rw [← noCriteria_eq_false_iff]; simp

theorem find_unknown_eq_none_iff (m : List (String × Option GlobAttr)) :
    m.find? (fun kv => decide (kv.1 ∉ allowedAttributeNames)) = none ↔
      ∀ kv ∈ m, allowListed kv.1 := by
  simp [List.find?_eq_none, mem_allowedAttributeNames_iff]

theorem violates_iff (a : Attributes) :
    a.violates ↔ ¬ (a.hasCriterion ∧ ∀ kv ∈ a.Metadata, allowListed kv.1) := by
  unfold Attributes.violates
  constructor
  · rintro (h | ⟨kv, hkv, hk⟩) ⟨h1, h2⟩
    · exact h h1
    · exact hk (h2 kv hkv)
  · intro h
    by_cases h1 : a.hasCriterion
    · right
      by_contra hc
      apply h
      refine ⟨h1, fun kv hkv => ?_⟩
      by_contra hk
      exact hc ⟨kv, hkv, hk⟩
    · exact Or.inl h1

theorem validateFrom_eq_none_iff (dc : List Attributes) (i : Nat) :
    validateFrom i dc = none ↔
      ∀ a ∈ dc, a.hasCriterion ∧ ∀ kv ∈ a.Metadata, allowListed kv.1 := by
  induction dc generalizing i with
  | nil => simp [validateFrom]
  | cons a rest ih =>
    unfold validateFrom
    by_cases hc : a.noCriteria = true
    · have hn := (noCriteria_eq_true_iff a).1 hc
      simp [hc, hn]
    · have hc2 : a.noCriteria = false := by simpa using hc
      have hh := (noCriteria_eq_false_iff a).1 hc2
      cases hf : a.Metadata.find? (fun kv => decide (kv.1 ∉ allowedAttributeNames)) with
      | none =>
        have hall := (find_unknown_eq_none_iff a.Metadata).1 hf
        simp only [hc2, Bool.false_eq_true, if_false, ih, List.mem_cons, forall_eq_or_imp]
        constructor
        · intro h; exact ⟨⟨hh, hall⟩, h⟩
        · intro h; exact h.2
      | some kv =>
        have hnot : ¬ ∀ kv ∈ a.Metadata, allowListed kv.1 := by
          intro hall
          rw [(find_unknown_eq_none_iff a.Metadata).2 hall] at hf
          cases hf
        simp only [hc2, Bool.false_eq_true, if_false, List.mem_cons, forall_eq_or_imp]
        constructor
        · intro h; cases h
        · intro h; exact absurd h.1.2 hnot

theorem validateFrom_eq_some (dc : List Attributes) (s : Nat) (err : String)
    (h : validateFrom s dc = some err) :
    ∃ i a, dc[i]? = some a ∧
      (∀ j b, j < i → dc[j]? = some b → ¬ b.violates) ∧
      a.violates ∧
      (¬ a.hasCriterion → err = "discovery.services[" ++ toString (s + i) ++
        "] should define at least one selection criteria") ∧
      (a.hasCriterion → ∃ kv ∈ a.Metadata, ¬ allowListed kv.1 ∧
        err = "unknown attribute in discovery.services[" ++ toString (s + i) ++ "]: " ++ kv.1) ∧
      (∀ later : List Attributes, validateFrom s (dc.take (i + 1) ++ later) = some err) := by
  induction dc generalizing s with
  | nil => simp [validateFrom] at h
  | cons a rest ih =>
    unfold validateFrom at h
    by_cases hc : a.noCriteria = true
    · have hn := (noCriteria_eq_true_iff a).1 hc
      simp only [hc, if_true, Option.some.injEq] at h
      refine ⟨0, a, by simp, by simp, Or.inl hn, fun _ => by simpa using h.symm,
        fun hh => absurd hh hn, fun later => ?_⟩
      simp [validateFrom, hc, h]
    · have hc2 : a.noCriteria = false := by simpa using hc
      have hh := (noCriteria_eq_false_iff a).1 hc2
      cases hf : a.Metadata.find? (fun kv => decide (kv.1 ∉ allowedAttributeNames)) with
      | some kv =>
        simp only [hc2, Bool.false_eq_true, if_false, hf, Option.some.injEq] at h
        have hmem : kv ∈ a.Metadata := List.mem_of_find?_eq_some hf
        have hbad : ¬ allowListed kv.1 := by
          have := List.find?_some hf
          simpa [mem_allowedAttributeNames_iff] using this
        refine ⟨0, a, by simp, by simp, Or.inr ⟨kv, hmem, hbad⟩, fun hn => absurd hh hn,
          fun _ => ⟨kv, hmem, hbad, by simpa using h.symm⟩, fun later => ?_⟩
        simp only [List.take_succ_cons, List.take_zero, List.cons_append, List.nil_append,
          validateFrom, hc2, Bool.false_eq_true, if_false, hf, h]
      | none =>
        simp only [hc2, Bool.false_eq_true, if_false, hf] at h
        have hall := (find_unknown_eq_none_iff a.Metadata).1 hf
        obtain ⟨i, b, hb, hbefore, hviol, hmsg1, hmsg2, hlater⟩ := ih (s + 1) h
        have hidx : s + 1 + i = s + (i + 1) := by omega
        rw [hidx] at hmsg1 hmsg2
        refine ⟨i + 1, b, by simpa using hb, ?_, hviol, hmsg1, hmsg2, fun later => ?_⟩
        · intro j c hj hjc
          cases j with
          | zero =>
            simp only [List.getElem?_cons_zero, Option.some.injEq] at hjc
            subst hjc
            rw [violates_iff]
            exact fun hnot => hnot ⟨hh, hall⟩
          | succ j =>
            simp only [List.getElem?_cons_succ] at hjc
            exact hbefore j c (by omega) hjc
        · simp only [List.take_succ_cons, List.cons_append, validateFrom, hc2,
            Bool.false_eq_true, if_false, hf]
          exact hlater later

/-- C1: `Validate` returns `nil` exactly when every rule has at least one
discriminating criterion (non-empty `OpenPorts`, set `Path`, or non-empty
`Metadata`, `PodLabels` or `PodAnnotations`) and only allow-listed `Metadata`
keys. `Name`, `Namespace` and the keys of the two pod maps play no part. -/
theorem validate_nil_iff (dc : DefinitionCriteria) :
    dc.Validate = none ↔
      ∀ a ∈ dc,
        (a.OpenPorts.Ranges ≠ [] ∨ a.Path.glob.isSome = true ∨ a.Metadata ≠ [] ∨
          a.PodLabels ≠ [] ∨ a.PodAnnotations ≠ []) ∧
        (∀ kv ∈ a.Metadata,
          kv.1 = "k8s_namespace" ∨ kv.1 = "k8s_pod_name" ∨ kv.1 = "k8s_deployment_name" ∨
          kv.1 = "k8s_replicaset_name" ∨ kv.1 = "k8s_daemonset_name" ∨
          kv.1 = "k8s_statefulset_name" ∨ kv.1 = "k8s_job_name" ∨ kv.1 = "k8s_cronjob_name" ∨
          kv.1 = "k8s_owner_name") :=
  validateFrom_eq_none_iff dc 0

/-- C2: when `Validate` returns an error, it is the error of the first rule, in
list order, that has no criterion or an unknown `Metadata` key: the
"should define at least one selection criteria" text with that index when the
rule has no criterion, otherwise the "unknown attribute" text with that index
and one of the rule's keys outside the allow-list; the rules after it do not
change the result. -/
theorem validate_reports_first_violation (dc : DefinitionCriteria) (err : String)
    (h : dc.Validate = some err) :
    ∃ i a, dc[i]? = some a ∧
      (∀ j b, j < i → dc[j]? = some b → ¬ b.violates) ∧
      a.violates ∧
      (¬ a.hasCriterion → err = "discovery.services[" ++ toString i ++
        "] should define at least one selection criteria") ∧
      (a.hasCriterion → ∃ kv ∈ a.Metadata, ¬ allowListed kv.1 ∧
        err = "unknown attribute in discovery.services[" ++ toString i ++ "]: " ++ kv.1) ∧
      (∀ later : DefinitionCriteria,
        DefinitionCriteria.Validate (dc.take (i + 1) ++ later) = some err) := by
  have := validateFrom_eq_some dc 0 err h
  simpa only [Nat.zero_add] using this

theorem validate_reports_first_violation_witness :
    DefinitionCriteria.Validate [portRule, unknownKeyRule, namedRule] =
        some "unknown attribute in discovery.services[1]: k8s_node" ∧
      ∃ i a, [portRule, unknownKeyRule, namedRule][i]? = some a ∧
        (∀ j b, j < i → [portRule, unknownKeyRule, namedRule][j]? = some b → ¬ b.violates) ∧
        a.violates ∧
        (¬ a.hasCriterion → "unknown attribute in discovery.services[1]: k8s_node" =
          "discovery.services[" ++ toString i ++
            "] should define at least one selection criteria") ∧
        (a.hasCriterion → ∃ kv ∈ a.Metadata, ¬ allowListed kv.1 ∧
          "unknown attribute in discovery.services[1]: k8s_node" =
            "unknown attribute in discovery.services[" ++ toString i ++ "]: " ++ kv.1) ∧
        (∀ later : DefinitionCriteria,
          DefinitionCriteria.Validate
              (([portRule, unknownKeyRule, namedRule] : DefinitionCriteria).take (i + 1) ++ later) =
            some "unknown attribute in discovery.services[1]: k8s_node") :=
  ⟨by decide, validate_reports_first_violation [portRule, unknownKeyRule, namedRule] _ (by decide)⟩

/-- C9 fails on the code: the documentation of `Attributes` asks every rule to
define `OpenPorts` or `Path`, yet `Validate` returns `nil` for a rule that
selects by Kubernetes namespace only and has neither. -/
theorem validate_nil_without_ports_or_path :
    DefinitionCriteria.Validate [namespaceRule] = none ∧
      ¬ (namespaceRule.OpenPorts.Ranges ≠ [] ∨ namespaceRule.Path.IsSet = true) := by
  constructor
  · decide
  · simp [namespaceRule, GlobAttr.IsSet]

/-! ## Port matching -/

theorem holds_iff (pr : PortRange) (port : Int) :
    pr.holds port = true ↔
      (pr.End = 0 ∧ pr.Start = port) ∨ (pr.End ≠ 0 ∧ pr.Start ≤ port ∧ port ≤ pr.End) := by
  simp [PortRange.holds, and_assoc]

theorem matches_go_iff (port : Int) (rs : List PortRange) :
    PortEnum.Matches.go port rs = true ↔ ∃ r ∈ rs, r.holds port = true := by
  induction rs with
  | nil => simp [PortEnum.Matches.go]
  | cons r rest ih =>
    unfold PortEnum.Matches.go
    by_cases h : r.holds port = true
    · simp [h]
    · simp [h, ih]

theorem matches_iff_exists_holds (p : PortEnum) (port : Int) :
    p.Matches port = true ↔ ∃ r ∈ p.Ranges, r.holds port = true :=
  matches_go_iff port p.Ranges

theorem matches_append (xs ys : List PortRange) (port : Int) :
    (PortEnum.mk (xs ++ ys)).Matches port =
      ((PortEnum.mk xs).Matches port || (PortEnum.mk ys).Matches port) := by
  rw [Bool.eq_iff_iff]
  simp only [Bool.or_eq_true, matches_iff_exists_holds, List.mem_append]
  constructor
  · rintro ⟨r, hr | hr, h⟩
    · exact Or.inl ⟨r, hr, h⟩
    · exact Or.inr ⟨r, hr, h⟩
  · rintro (⟨r, hr, h⟩ | ⟨r, hr, h⟩)
    · exact ⟨r, Or.inl hr, h⟩
    · exact ⟨r, Or.inr hr, h⟩

/-- C3: `Matches(port)` is true exactly when some range of the enumeration is
the single port `port` (`End == 0`, `Start == port`) or an interval with
`End != 0` and `Start <= port <= End`. An enumeration that contains the entry
`{port, 0}` matches `port`, and the one-range enumeration `{a, b}` with `b != 0`
matches `port` iff `a <= port <= b`. -/
theorem portEnum_matches_iff (p : PortEnum) (port : Int) :
    (p.Matches port = true ↔
      ∃ r ∈ p.Ranges,
        (r.End = 0 ∧ r.Start = port) ∨ (r.End ≠ 0 ∧ r.Start ≤ port ∧ port ≤ r.End)) ∧
    ((⟨port, 0⟩ : PortRange) ∈ p.Ranges → p.Matches port = true) ∧
    (∀ a b : Int, b ≠ 0 →
      ((PortEnum.mk [⟨a, b⟩]).Matches port = true ↔ a ≤ port ∧ port ≤ b)) := by
  refine ⟨?_, ?_, ?_⟩
  · rw [matches_iff_exists_holds]
    simp only [holds_iff]
  · intro hmem
    rw [matches_iff_exists_holds]
    exact ⟨⟨port, 0⟩, hmem, by simp [PortRange.holds]⟩
  · intro a b hb
    rw [matches_iff_exists_holds]
    simp [holds_iff, hb]

theorem portEnum_matches_iff_witness :
    ((⟨8080, 0⟩ : PortRange) ∈ [(⟨80, 0⟩ : PortRange), ⟨8080, 0⟩]) ∧
      (PortEnum.mk [⟨80, 0⟩, ⟨8080, 0⟩]).Matches 8080 = true ∧
      ((8999 : Int) ≠ 0) ∧
      ((PortEnum.mk [⟨8000, 8999⟩]).Matches 8080 = true ↔ (8000 : Int) ≤ 8080 ∧ (8080 : Int) ≤ 8999) :=
  ⟨by decide,
    (portEnum_matches_iff ⟨[⟨80, 0⟩, ⟨8080, 0⟩]⟩ 8080).2.1 (by decide),
    by decide,
    (portEnum_matches_iff ⟨[]⟩ 8080).2.2 8000 8999 (by decide)⟩

theorem portOfInterest_iff_exists (dc : DefinitionCriteria) (port : Int) :
    dc.PortOfInterest port = true ↔ ∃ a ∈ dc, a.OpenPorts.Matches port = true := by
  induction dc with
  | nil => simp [DefinitionCriteria.PortOfInterest]
  | cons a rest ih =>
    unfold DefinitionCriteria.PortOfInterest
    by_cases h : a.OpenPorts.Matches port = true
    · simp [h]
    · simp [h, ih]

/-- C4: `PortOfInterest(port)` is true exactly when some rule's `OpenPorts`
matches `port`. A rule with an empty `OpenPorts` matches no port, whatever its
other fields, so removing such rules does not change the answer. -/
theorem portOfInterest_iff (dc : DefinitionCriteria) (port : Int) :
    (dc.PortOfInterest port = true ↔ ∃ a ∈ dc, a.OpenPorts.Matches port = true) ∧
    (∀ a : Attributes, a.OpenPorts.Ranges = [] → a.OpenPorts.Matches port = false) ∧
    DefinitionCriteria.PortOfInterest
        (dc.filter (fun a => decide (a.OpenPorts.Len ≠ 0))) port =
      dc.PortOfInterest port := by
  have hempty : ∀ a : Attributes, a.OpenPorts.Ranges = [] → a.OpenPorts.Matches port = false := by
    intro a ha
    simp [PortEnum.Matches, ha, PortEnum.Matches.go]
  refine ⟨portOfInterest_iff_exists dc port, hempty, ?_⟩
  rw [Bool.eq_iff_iff, portOfInterest_iff_exists, portOfInterest_iff_exists]
  constructor
  · rintro ⟨a, ha, hm⟩
    exact ⟨a, (List.mem_filter.1 ha).1, hm⟩
  · rintro ⟨a, ha, hm⟩
    refine ⟨a, List.mem_filter.2 ⟨ha, ?_⟩, hm⟩
    have hne : a.OpenPorts.Ranges ≠ [] := by
      intro hnil
      rw [hempty a hnil] at hm
      cases hm
    simpa [PortEnum.Len] using hne

theorem portOfInterest_iff_witness :
    namespaceRule.OpenPorts.Ranges = [] ∧ namespaceRule.OpenPorts.Matches 80 = false ∧
      DefinitionCriteria.PortOfInterest [namespaceRule, portRule] 80 = true :=
  ⟨rfl, (portOfInterest_iff [namespaceRule, portRule] 80).2.1 namespaceRule rfl, by decide⟩

/-! ## Glob attributes -/

/-- C7: an unset `GlobAttr` (the zero value, which is also `NewGlob(nil)`)
matches every input string, the empty one included. -/
theorem unset_glob_matches_everything (p : GlobAttr) (h : p.IsSet = false) (s : String) :
    p.MatchString s = true := by
  cases p with
  | mk g =>
    cases g with
    | none => rfl
    | some g => simp [GlobAttr.IsSet] at h

theorem unset_glob_matches_everything_witness :
    (NewGlob none).IsSet = false ∧ (NewGlob none).MatchString "" = true :=
  ⟨rfl, unset_glob_matches_everything (NewGlob none) rfl ""⟩

/-! ## The language of `validPortEnum` -/

theorem mem_anyOf (cs : List Char) (x : List Char) :
    x ∈ (anyOf cs).matches' ↔ ∃ c ∈ cs, x = [c] := by
  induction cs with
  | nil =>
    simp only [anyOf, List.foldr_nil, List.not_mem_nil, false_and, exists_false, iff_false]
    exact fun h => h
  | cons c cs ih =>
    have hstep : anyOf (c :: cs) = RegularExpression.char c + anyOf cs := rfl
    rw [hstep, RegularExpression.matches'_add, Language.mem_add, ih,
      RegularExpression.matches'_char]
    simp only [List.mem_cons, exists_eq_or_imp]
    exact Iff.rfl

theorem mem_star_anyOf (cs : List Char) (x : List Char) :
    x ∈ (RegularExpression.star (anyOf cs)).matches' ↔ ∀ c ∈ x, c ∈ cs := by
  rw [RegularExpression.matches'_star, Language.mem_kstar]
  constructor
  · rintro ⟨L, rfl, hL⟩ c hc
    obtain ⟨y, hy, hcy⟩ := List.mem_flatten.1 hc
    obtain ⟨d, hd, rfl⟩ := (mem_anyOf cs y).1 (hL y hy)
    simp only [List.mem_singleton] at hcy
    exact hcy ▸ hd
  · intro h
    refine ⟨x.map (fun c => [c]), ?_, ?_⟩
    · clear h
      induction x with
      | nil => rfl
      | cons c x ih => simp [List.flatten, ← ih]
    · intro y hy
      obtain ⟨c, hc, rfl⟩ := List.mem_map.1 hy
      exact (mem_anyOf cs [c]).2 ⟨c, h c hc, rfl⟩

theorem mem_oneOrMore_anyOf (cs : List Char) (x : List Char) :
    x ∈ (oneOrMore (anyOf cs)).matches' ↔ x ≠ [] ∧ ∀ c ∈ x, c ∈ cs := by
  unfold oneOrMore
  rw [RegularExpression.matches'_mul, Language.mem_mul]
  constructor
  · rintro ⟨a, ha, b, hb, rfl⟩
    obtain ⟨c, hc, rfl⟩ := (mem_anyOf cs a).1 ha
    have hb2 := (mem_star_anyOf cs b).1 hb
    refine ⟨by simp, ?_⟩
    intro d hd
    simp only [List.singleton_append, List.mem_cons] at hd
    rcases hd with rfl | hd
    · exact hc
    · exact hb2 d hd
  · rintro ⟨hne, h⟩
    cases x with
    | nil => exact absurd rfl hne
    | cons c x =>
      refine ⟨[c], (mem_anyOf cs [c]).2 ⟨c, h c (by simp), rfl⟩, x,
        (mem_star_anyOf cs x).2 (fun d hd => h d (by simp [hd])), rfl⟩

theorem mem_reSpaceChars_iff (c : Char) : c ∈ reSpaceChars ↔ IsBlankChar c := by
  simp only [reSpaceChars, IsBlankChar, List.mem_cons, List.mem_singleton, List.not_mem_nil,
    or_false]
  tauto

theorem mem_reDigitChars_iff (c : Char) : c ∈ reDigitChars ↔ IsDigitChar c := by
  simp only [reDigitChars, IsDigitChar, List.mem_cons, List.mem_singleton, List.not_mem_nil,
    or_false]

theorem mem_blank_re (x : List Char) :
    x ∈ (RegularExpression.star (anyOf reSpaceChars)).matches' ↔ IsBlank x := by
  rw [mem_star_anyOf]
  simp only [mem_reSpaceChars_iff, IsBlank]

theorem mem_digits_re (x : List Char) :
    x ∈ (oneOrMore (anyOf reDigitChars)).matches' ↔ IsDigitRun x := by
  rw [mem_oneOrMore_anyOf]
  simp only [mem_reDigitChars_iff, IsDigitRun]

theorem mem_padded_re (x : List Char) :
    x ∈ (RegularExpression.star (anyOf reSpaceChars) * oneOrMore (anyOf reDigitChars) *
        RegularExpression.star (anyOf reSpaceChars)).matches' ↔
      ∃ r : PaddedRun, r.wellFormed ∧ x = r.text := by
  simp only [RegularExpression.matches'_mul, Language.mem_mul]
  constructor
  · rintro ⟨ab, ⟨a, ha, b, hb, rfl⟩, c, hc, rfl⟩
    exact ⟨⟨a, b, c⟩, ⟨(mem_blank_re a).1 ha, (mem_digits_re b).1 hb, (mem_blank_re c).1 hc⟩, rfl⟩
  · rintro ⟨r, ⟨h1, h2, h3⟩, rfl⟩
    exact ⟨r.before ++ r.digits, ⟨r.before, (mem_blank_re _).2 h1, r.digits,
      (mem_digits_re _).2 h2, rfl⟩, r.after, (mem_blank_re _).2 h3, rfl⟩

theorem mem_portEntryRe (x : List Char) :
    x ∈ portEntryRe.matches' ↔ ∃ e : PortEntry, e.wellFormed ∧ x = e.text := by
  unfold portEntryRe optional
  rw [RegularExpression.matches'_mul, Language.mem_mul]
  simp only [mem_padded_re, RegularExpression.matches'_add, Language.mem_add,
    RegularExpression.matches'_epsilon, Language.mem_one]
  constructor
  · rintro ⟨a, ⟨r, hr, rfl⟩, b, hb | hb, rfl⟩
    · subst hb
      exact ⟨⟨r, none⟩, ⟨hr, by simp⟩, by simp [PortEntry.text]⟩
    · have hb2 : b ∈ (RegularExpression.char '-').matches' *
          (RegularExpression.star (anyOf reSpaceChars) * oneOrMore (anyOf reDigitChars) *
            RegularExpression.star (anyOf reSpaceChars)).matches' := by
        simpa only [RegularExpression.matches'_mul, mul_assoc] using hb
      rw [Language.mem_mul] at hb2
      obtain ⟨d, hd, t, ht, rfl⟩ := hb2
      obtain ⟨r2, hr2, rfl⟩ := (mem_padded_re t).1 ht
      rw [RegularExpression.matches'_char] at hd
      have hd2 : d = ['-'] := hd
      subst hd2
      refine ⟨⟨r, some r2⟩, ⟨hr, ?_⟩, by simp [PortEntry.text]⟩
      intro r3 h3
      simp only [Option.some.injEq] at h3
      exact h3 ▸ hr2
  · rintro ⟨⟨r, second⟩, ⟨hr, hsecond⟩, rfl⟩
    cases second with
    | none => exact ⟨r.text, ⟨r, hr, rfl⟩, [], Or.inl rfl, by simp [PortEntry.text]⟩
    | some r2 =>
      refine ⟨r.text, ⟨r, hr, rfl⟩, '-' :: r2.text, Or.inr ?_, by simp [PortEntry.text]⟩
      have hmem : ('-' :: r2.text) ∈ (RegularExpression.char '-').matches' *
          (RegularExpression.star (anyOf reSpaceChars) * oneOrMore (anyOf reDigitChars) *
            RegularExpression.star (anyOf reSpaceChars)).matches' := by
        rw [Language.mem_mul]
        refine ⟨['-'], ?_, r2.text, (mem_padded_re _).2 ⟨r2, hsecond r2 rfl, rfl⟩, rfl⟩
        rw [RegularExpression.matches'_char]
        rfl
      simpa only [RegularExpression.matches'_mul, mul_assoc] using hmem

theorem intercalate_cons_eq (sep : Char) (t : List Char) (ts : List (List Char)) :
    List.intercalate [sep] (t :: ts) = t ++ (ts.map (fun u => sep :: u)).flatten := by
  induction ts generalizing t with
  | nil => simp [List.intercalate]
  | cons u ts ih =>
    have hstep : List.intercalate [sep] (t :: u :: ts) =
        t ++ sep :: List.intercalate [sep] (u :: ts) := by
      simp [List.intercalate]
    rw [hstep, ih]
    simp

theorem mem_comma_entries (L : List (List Char))
    (h : ∀ y ∈ L, y ∈ (RegularExpression.char ',' * portEntryRe).matches') :
    ∃ es : List PortEntry, (∀ e ∈ es, e.wellFormed) ∧
      L = (es.map PortEntry.text).map (fun u => ',' :: u) := by
  induction L with
  | nil => exact ⟨[], by simp, rfl⟩
  | cons y L ih =>
    obtain ⟨es, hes, hL⟩ := ih (fun z hz => h z (by simp [hz]))
    have hy := h y (by simp)
    rw [RegularExpression.matches'_mul, Language.mem_mul] at hy
    obtain ⟨a, ha, b, hb, rfl⟩ := hy
    rw [RegularExpression.matches'_char] at ha
    have ha2 : a = [','] := ha
    obtain ⟨e, he, rfl⟩ := (mem_portEntryRe b).1 hb
    refine ⟨e :: es, ?_, by simp [ha2, hL]⟩
    intro e2 he2
    rcases List.mem_cons.1 he2 with rfl | he2
    · exact he
    · exact hes e2 he2

theorem mem_validPortEnum (x : List Char) :
    x ∈ validPortEnum.matches' ↔ IsPortList x := by
  unfold validPortEnum IsPortList
  rw [RegularExpression.matches'_mul, Language.mem_mul]
  constructor
  · rintro ⟨a, ha, b, hb, rfl⟩
    obtain ⟨e, he, rfl⟩ := (mem_portEntryRe a).1 ha
    rw [RegularExpression.matches'_star, Language.mem_kstar] at hb
    obtain ⟨L, rfl, hL⟩ := hb
    obtain ⟨es, hes, rfl⟩ := mem_comma_entries L hL
    refine ⟨e :: es, by simp, ?_, ?_⟩
    · intro e2 he2
      rcases List.mem_cons.1 he2 with rfl | he2
      · exact he
      · exact hes e2 he2
    · rw [List.map_cons, intercalate_cons_eq]
  · rintro ⟨es, hne, hes, rfl⟩
    cases es with
    | nil => exact absurd rfl hne
    | cons e es =>
      rw [List.map_cons, intercalate_cons_eq]
      refine ⟨e.text, (mem_portEntryRe _).2 ⟨e, hes e (by simp), rfl⟩, _, ?_, rfl⟩
      rw [RegularExpression.matches'_star, Language.mem_kstar]
      refine ⟨_, rfl, ?_⟩
      intro y hy
      simp only [List.map_map, List.mem_map, Function.comp] at hy
      obtain ⟨e2, he2, rfl⟩ := hy
      rw [RegularExpression.matches'_mul, Language.mem_mul]
      refine ⟨[','], ?_, e2.text, (mem_portEntryRe _).2 ⟨e2, hes e2 (by simp [he2]), rfl⟩, rfl⟩
      rw [RegularExpression.matches'_char]
      rfl

theorem matchString_validPortEnum_iff (x : List Char) :
    MatchString validPortEnum x = true ↔ IsPortList x := by
  unfold MatchString
  rw [RegularExpression.rmatch_iff_matches', mem_validPortEnum]

/-! ## Splitting, trimming and converting -/

theorem split_of_not_mem (sep : Char) (s : List Char) (h : sep ∉ s) : Split s sep = [s] := by
  induction s with
  | nil => rfl
  | cons c cs ih =>
    have hc : c ≠ sep := fun hc => h (by simp [hc])
    have hcs : sep ∉ cs := fun hm => h (by simp [hm])
    simp [Split, hc, ih hcs]

theorem split_append_sep (sep : Char) (a b : List Char) (h : sep ∉ a) :
    Split (a ++ sep :: b) sep = a :: Split b sep := by
  induction a with
  | nil => simp [Split]
  | cons c cs ih =>
    have hc : c ≠ sep := fun hc => h (by simp [hc])
    have hcs : sep ∉ cs := fun hm => h (by simp [hm])
    simp [Split, hc, ih hcs]

theorem split_joined (sep : Char) (t : List Char) (ts : List (List Char))
    (ht : sep ∉ t) (hts : ∀ u ∈ ts, sep ∉ u) :
    Split (t ++ (ts.map (fun u => sep :: u)).flatten) sep = t :: ts := by
  induction ts generalizing t with
  | nil => simpa using split_of_not_mem sep t ht
  | cons u ts ih =>
    simp only [List.map_cons, List.flatten_cons, List.cons_append]
    rw [split_append_sep sep t _ ht, ih u (hts u (by simp)) (fun v hv => hts v (by simp [hv]))]

theorem split_intercalate (sep : Char) (ts : List (List Char)) (hne : ts ≠ [])
    (hts : ∀ u ∈ ts, sep ∉ u) : Split (List.intercalate [sep] ts) sep = ts := by
  cases ts with
  | nil => exact absurd rfl hne
  | cons t ts =>
    rw [intercalate_cons_eq]
    exact split_joined sep t ts (hts t (by simp)) (fun u hu => hts u (by simp [hu]))

theorem blankChar_facts (c : Char) (h : IsBlankChar c) :
    unicodeIsSpace c = true ∧ c ≠ ',' ∧ c ≠ '-' ∧ ¬ IsDigitChar c := by
  rcases h with rfl | rfl | rfl | rfl | rfl <;> decide

theorem digitChar_facts (c : Char) (h : IsDigitChar c) :
    unicodeIsSpace c = false ∧ c.isDigit = true ∧ c ≠ ',' ∧ c ≠ '-' ∧ c ≠ '+' ∧
      ¬ IsBlankChar c := by
  rcases h with rfl | rfl | rfl | rfl | rfl | rfl | rfl | rfl | rfl | rfl <;> decide

theorem dropWhile_append_of_all (q : Char → Bool) (a b : List Char)
    (h : ∀ c ∈ a, q c = true) : (a ++ b).dropWhile q = b.dropWhile q := by
  induction a with
  | nil => rfl
  | cons c cs ih =>
    simp [List.dropWhile, h c (by simp), ih (fun d hd => h d (by simp [hd]))]

theorem trimSpace_padded (r : PaddedRun) (h : r.wellFormed) : TrimSpace r.text = r.digits := by
  obtain ⟨hb, ⟨hne, hd⟩, ha⟩ := h
  unfold TrimSpace PaddedRun.text
  rw [List.append_assoc, dropWhile_append_of_all _ _ _ (fun c hc => (blankChar_facts c (hb c hc)).1)]
  have hfront : (r.digits ++ r.after).dropWhile unicodeIsSpace = r.digits ++ r.after := by
    cases hds : r.digits with
    | nil => exact absurd hds hne
    | cons c cs =>
      have hc : unicodeIsSpace c = false := (digitChar_facts c (hd c (by simp [hds]))).1
      simp [List.dropWhile, hc]
  rw [hfront, List.reverse_append,
    dropWhile_append_of_all _ _ _ (fun c hc =>
      (blankChar_facts c (ha c (List.mem_reverse.1 hc))).1)]
  have hback : r.digits.reverse.dropWhile unicodeIsSpace = r.digits.reverse := by
    cases hds : r.digits.reverse with
    | nil => exact absurd (List.reverse_eq_nil_iff.1 hds) hne
    | cons c cs =>
      have hmem : c ∈ r.digits := List.mem_reverse.1 (by simp [hds])
      have hc : unicodeIsSpace c = false := (digitChar_facts c (hd c hmem)).1
      simp [List.dropWhile, hc]
  rw [hback, List.reverse_reverse]

/-- The value that `strconv.Atoi` gives to a digit run: its decimal value,
capped at the largest `int`. -/
theorem atoi_digitRun (d : List Char) (h : IsDigitRun d) :
    Atoi d =
      if digitsValue d > maxInt then ((maxInt : Int), some NumError.outOfRange)
      else ((digitsValue d : Int), none) := by
  obtain ⟨hne, hd⟩ := h
  cases d with
  | nil => exact absurd rfl hne
  | cons c cs =>
    have hc := digitChar_facts c (hd c (by simp))
    have hall : (c :: cs).all Char.isDigit = true := by
      rw [List.all_eq_true]
      intro x hx
      exact (digitChar_facts x (hd x hx)).2.1
    have h1 : c ≠ '-' := hc.2.2.2.1
    have h2 : c ≠ '+' := hc.2.2.2.2.1
    unfold Atoi
    simp only [h1, h2, or_self, if_false, decide_False, hall, not_true_eq_false, or_false,
      List.cons_ne_nil, Bool.false_eq_true, false_and, true_and]

theorem atoi_digitRun_fst (d : List Char) (h : IsDigitRun d) (hfit : digitsValue d ≤ maxInt) :
    (Atoi d).1 = (digitsValue d : Int) := by
  rw [atoi_digitRun d h, if_neg (by omega)]

theorem padded_text_no_dash (r : PaddedRun) (h : r.wellFormed) : '-' ∉ r.text := by
  obtain ⟨hb, ⟨_, hd⟩, ha⟩ := h
  intro hm
  simp only [PaddedRun.text, List.mem_append] at hm
  rcases hm with (hm | hm) | hm
  · exact (blankChar_facts _ (hb _ hm)).2.2.1 rfl
  · exact (digitChar_facts _ (hd _ hm)).2.2.2.1 rfl
  · exact (blankChar_facts _ (ha _ hm)).2.2.1 rfl

theorem padded_text_no_comma (r : PaddedRun) (h : r.wellFormed) : ',' ∉ r.text := by
  obtain ⟨hb, ⟨_, hd⟩, ha⟩ := h
  intro hm
  simp only [PaddedRun.text, List.mem_append] at hm
  rcases hm with (hm | hm) | hm
  · exact (blankChar_facts _ (hb _ hm)).2.1 rfl
  · exact (digitChar_facts _ (hd _ hm)).2.2.1 rfl
  · exact (blankChar_facts _ (ha _ hm)).2.1 rfl

theorem entry_text_no_comma (e : PortEntry) (h : e.wellFormed) : ',' ∉ e.text := by
  obtain ⟨h1, h2⟩ := h
  cases e with
  | mk first second =>
    cases second with
    | none => exact padded_text_no_comma first h1
    | some r =>
      intro hm
      simp only [PortEntry.text, List.mem_append, List.mem_cons] at hm
      rcases hm with hm | hm | hm
      · exact padded_text_no_comma first h1 hm
      · exact absurd hm (by decide)
      · exact padded_text_no_comma r (h2 r rfl) hm

theorem parseEntry_text (e : PortEntry) (h : e.wellFormed) : parseEntry e.text = e.range := by
  obtain ⟨h1, h2⟩ := h
  cases e with
  | mk first second =>
    cases second with
    | none =>
      simp only [PortEntry.text, PortEntry.range, parseEntry,
        split_of_not_mem '-' first.text (padded_text_no_dash first h1), List.headD_cons,
        trimSpace_padded first h1]
    | some r =>
      have hr := h2 r rfl
      simp only [PortEntry.text, PortEntry.range, parseEntry,
        split_append_sep '-' first.text r.text (padded_text_no_dash first h1),
        split_of_not_mem '-' r.text (padded_text_no_dash r hr), List.headD_cons,
        trimSpace_padded first h1, trimSpace_padded r hr]

theorem foldl_append_ranges (f : List Char → PortRange) (l : List (List Char)) (p : PortEnum) :
    l.foldl (fun q entry => ({ Ranges := q.Ranges ++ [f entry] } : PortEnum)) p =
      { Ranges := p.Ranges ++ l.map f } := by
  induction l generalizing p with
  | nil => simp
  | cons x l ih => simp [List.foldl, ih]

/-- The parser on a well-formed text: no error, and one range per entry is
appended, in order. -/
theorem unmarshalText_entries (quote : List Char → String) (p : PortEnum)
    (es : List PortEntry) (hne : es ≠ []) (hes : ∀ e ∈ es, e.wellFormed) :
    PortEnum.UnmarshalText quote p (List.intercalate [','] (es.map PortEntry.text)) =
      ({ Ranges := p.Ranges ++ es.map PortEntry.range }, none) := by
  have hacc : MatchString validPortEnum (List.intercalate [','] (es.map PortEntry.text)) = true :=
    (matchString_validPortEnum_iff _).2 ⟨es, hne, hes, rfl⟩
  have hsplit : Split (List.intercalate [','] (es.map PortEntry.text)) ',' =
      es.map PortEntry.text := by
    apply split_intercalate
    · simpa using hne
    · intro u hu
      obtain ⟨e, he, rfl⟩ := List.mem_map.1 hu
      exact entry_text_no_comma e (hes e he)
  unfold PortEnum.UnmarshalText
  rw [hacc, hsplit, foldl_append_ranges]
  simp only [Bool.true_eq_false, if_false, List.map_map, Prod.mk.injEq, PortEnum.mk.injEq,
    List.append_cancel_left_eq, and_true]
  apply List.map_congr_left
  intro e he
  exact parseEntry_text e (hes e he)

theorem unmarshalText_snd_eq_none_iff (quote : List Char → String) (p : PortEnum)
    (text : List Char) :
    (PortEnum.UnmarshalText quote p text).2 = none ↔ IsPortList text := by
  rw [← matchString_validPortEnum_iff]
  unfold PortEnum.UnmarshalText
  cases MatchString validPortEnum text <;> simp

theorem portList_has_digit (text : List Char) (h : IsPortList text) :
    ∃ c ∈ text, IsDigitChar c := by
  obtain ⟨es, hne, hes, rfl⟩ := h
  cases es with
  | nil => exact absurd rfl hne
  | cons e es =>
    obtain ⟨_, ⟨hd, hdig⟩, _⟩ := (hes e (by simp)).1
    cases hds : e.first.digits with
    | nil => exact absurd hds hd
    | cons c cs =>
      refine ⟨c, ?_, hdig c (by simp [hds])⟩
      rw [List.map_cons, intercalate_cons_eq]
      apply List.mem_append_left
      cases e with
      | mk first second =>
        have hc : c ∈ first.text := by
          simp only [PaddedRun.text, List.mem_append]
          exact Or.inl (Or.inr (by simp [show first.digits = c :: cs from hds]))
        cases second with
        | none => exact hc
        | some r => exact List.mem_append_left _ hc

/-- C5: `UnmarshalText` returns an error exactly when the text is not a
non-empty comma-separated list of entries, each a run of one or more digits
optionally followed by `-` and a second run, with white space allowed only
around the runs. A text without any digit, and so the empty text, is rejected,
and the error message is the fixed text around the quoted input. -/
theorem unmarshalText_error_iff (quote : List Char → String) (p : PortEnum) (text : List Char) :
    ((PortEnum.UnmarshalText quote p text).2 ≠ none ↔ ¬ IsPortList text) ∧
    ((∀ c ∈ text, ¬ IsDigitChar c) → (PortEnum.UnmarshalText quote p text).2 ≠ none) ∧
    (PortEnum.UnmarshalText quote p []).2 ≠ none ∧
    (∀ err, (PortEnum.UnmarshalText quote p text).2 = some err →
      err = "invalid port range " ++ quote text ++
        ". Must be a comma-separated list of numeric ports or port ranges (e.g. 8000-8999)") := by
  refine ⟨not_congr (unmarshalText_snd_eq_none_iff quote p text), ?_, ?_, ?_⟩
  · intro hno hnone
    obtain ⟨c, hc, hd⟩ := portList_has_digit text ((unmarshalText_snd_eq_none_iff quote p text).1 hnone)
    exact hno c hc hd
  · intro hnone
    obtain ⟨c, hc, _⟩ := portList_has_digit [] ((unmarshalText_snd_eq_none_iff quote p []).1 hnone)
    simp at hc
  · intro err herr
    unfold PortEnum.UnmarshalText at herr
    cases hm : MatchString validPortEnum text
    · simp only [hm, if_true, Option.some.injEq] at herr
      exact herr.symm
    · simp [hm] at herr

theorem unmarshalText_error_iff_witness :
    (∀ c ∈ ['h', 't', 't', 'p'], ¬ IsDigitChar c) ∧
      (PortEnum.UnmarshalText plainQuote ⟨[]⟩ ['h', 't', 't', 'p']).2 ≠ none ∧
      (PortEnum.UnmarshalText plainQuote ⟨[]⟩ ['h', 't', 't', 'p']).2 =
        some ("invalid port range \"http\". Must be a comma-separated list of numeric " ++
          "ports or port ranges (e.g. 8000-8999)") :=
  ⟨by decide,
    (unmarshalText_error_iff plainQuote ⟨[]⟩ ['h', 't', 't', 'p']).2.1 (by decide),
    by decide⟩

/-! ## Printing and parsing -/

theorem digitChar_lt_ten (k : Nat) (h : k < 10) :
    IsDigitChar (Nat.digitChar k) ∧ (Nat.digitChar k).toNat - '0'.toNat = k := by
  interval_cases k <;> decide

theorem toDigitsCore_spec (fuel n : Nat) (ds : List Char) (hfuel : n < fuel)
    (hds : ∀ c ∈ ds, IsDigitChar c) :
    (∀ c ∈ Nat.toDigitsCore 10 fuel n ds, IsDigitChar c) ∧
      Nat.toDigitsCore 10 fuel n ds ≠ [] ∧
      (Nat.toDigitsCore 10 fuel n ds).foldl (fun a ch => a * 10 + (ch.toNat - '0'.toNat)) 0 =
        ds.foldl (fun a ch => a * 10 + (ch.toNat - '0'.toNat)) n := by
  induction fuel generalizing n ds with
  | zero => omega
  | succ fuel ih =>
    have hd := digitChar_lt_ten (n % 10) (Nat.mod_lt _ (by norm_num))
    have hds2 : ∀ c ∈ Nat.digitChar (n % 10) :: ds, IsDigitChar c := by
      intro c hc
      rcases List.mem_cons.1 hc with rfl | hc
      · exact hd.1
      · exact hds c hc
    unfold Nat.toDigitsCore
    by_cases hq : n / 10 = 0
    · simp only [hq, if_true]
      refine ⟨hds2, by simp, ?_⟩
      have hn : n % 10 = n := Nat.mod_eq_of_lt (by omega)
      have hd2 := hd.2
      rw [hn] at hd2
      simp only [List.foldl_cons, hn, hd2, Nat.zero_mul, Nat.zero_add]
    · simp only [hq, if_false]
      obtain ⟨h1, h2, h3⟩ := ih (n / 10) (Nat.digitChar (n % 10) :: ds) (by omega) hds2
      refine ⟨h1, h2, ?_⟩
      rw [h3]
      simp only [List.foldl_cons, hd.2]
      congr 1
      omega

theorem decimal_spec (n : Int) (h : 0 ≤ n) :
    IsDigitRun (decimal n) ∧ (digitsValue (decimal n) : Int) = n := by
  obtain ⟨h1, h2, h3⟩ := toDigitsCore_spec (n.toNat + 1) n.toNat [] (by omega) (by simp)
  refine ⟨⟨h2, h1⟩, ?_⟩
  have hv : digitsValue (decimal n) = n.toNat := by
    unfold digitsValue decimal Nat.toDigits
    rw [h3]
    rfl
  rw [hv]
  omega

theorem entryOfRange_spec (r : PortRange)
    (h : 0 ≤ r.Start ∧ r.Start ≤ maxInt ∧ 0 ≤ r.End ∧ r.End ≤ maxInt) :
    (entryOfRange r).wellFormed ∧ (entryOfRange r).text = renderRange r ∧
      (entryOfRange r).range = r := by
  obtain ⟨hs0, hs1, he0, he1⟩ := h
  obtain ⟨hsRun, hsVal⟩ := decimal_spec r.Start hs0
  obtain ⟨heRun, heVal⟩ := decimal_spec r.End he0
  have hsAtoi : (Atoi (decimal r.Start)).1 = r.Start := by
    rw [atoi_digitRun_fst _ hsRun (by omega), hsVal]
  have heAtoi : (Atoi (decimal r.End)).1 = r.End := by
    rw [atoi_digitRun_fst _ heRun (by omega), heVal]
  have hblank : IsBlank [] := by simp [IsBlank]
  cases r with
  | mk start stop =>
    by_cases hz : stop = 0
    · subst hz
      refine ⟨⟨⟨hblank, hsRun, hblank⟩, by simp [entryOfRange]⟩, ?_, ?_⟩
      · simp [entryOfRange, PortEntry.text, PaddedRun.text, renderRange]
      · simp only [entryOfRange, PortEntry.range, if_true]
        rw [hsAtoi]
    · refine ⟨⟨⟨hblank, hsRun, hblank⟩, ?_⟩, ?_, ?_⟩
      · intro r2 hr2
        simp only [entryOfRange, hz, if_false, Option.some.injEq] at hr2
        subst hr2
        exact ⟨hblank, heRun, hblank⟩
      · simp [entryOfRange, PortEntry.text, PaddedRun.text, renderRange, hz]
      · simp only [entryOfRange, PortEntry.range, hz, if_false]
        rw [hsAtoi, heAtoi]

/-- C6: parsing undoes printing. For a non-empty list of ranges whose bounds
are non-negative and fit in an `int`, `UnmarshalText` on an empty enumeration
accepts the printed list and leaves exactly these ranges, in the same order. -/
theorem unmarshalText_renderPorts (quote : List Char → String) (rs : List PortRange)
    (hne : rs ≠ [])
    (hfit : ∀ r ∈ rs, 0 ≤ r.Start ∧ r.Start ≤ maxInt ∧ 0 ≤ r.End ∧ r.End ≤ maxInt) :
    PortEnum.UnmarshalText quote { Ranges := [] } (renderPorts rs) =
      ({ Ranges := rs }, none) := by
  have htext : rs.map renderRange = (rs.map entryOfRange).map PortEntry.text := by
    rw [List.map_map]
    apply List.map_congr_left
    intro r hr
    exact (entryOfRange_spec r (hfit r hr)).2.1.symm
  have hrange : (rs.map entryOfRange).map PortEntry.range = rs := by
    rw [List.map_map]
    conv_rhs => rw [← List.map_id rs]
    apply List.map_congr_left
    intro r hr
    exact (entryOfRange_spec r (hfit r hr)).2.2
  unfold renderPorts
  rw [htext, unmarshalText_entries quote _ (rs.map entryOfRange) (by simpa using hne)]
  · rw [hrange, List.nil_append]
  · intro e he
    obtain ⟨r, hr, rfl⟩ := List.mem_map.1 he
    exact (entryOfRange_spec r (hfit r hr)).1

theorem unmarshalText_renderPorts_witness :
    renderPorts [⟨80, 0⟩, ⟨443, 0⟩, ⟨8000, 8999⟩] = "80,443,8000-8999".toList ∧
      PortEnum.UnmarshalText plainQuote { Ranges := [] }
          (renderPorts [⟨80, 0⟩, ⟨443, 0⟩, ⟨8000, 8999⟩]) =
        ({ Ranges := [⟨80, 0⟩, ⟨443, 0⟩, ⟨8000, 8999⟩] }, none) :=
  ⟨by decide,
    unmarshalText_renderPorts plainQuote [⟨80, 0⟩, ⟨443, 0⟩, ⟨8000, 8999⟩] (by simp)
      (by decide)⟩

/-! ## Range tokens -/

theorem unmarshalText_dashEntry (quote : List Char → String) (n m : List Char)
    (hn : IsDigitRun n) (hm : IsDigitRun m) :
    PortEnum.UnmarshalText quote { Ranges := [] } (n ++ '-' :: m) =
      ({ Ranges := [{ Start := (Atoi n).1, End := (Atoi m).1 }] }, none) := by
  have hblank : IsBlank [] := by simp [IsBlank]
  have hwf : (dashEntry n m).wellFormed := by
    refine ⟨⟨hblank, hn, hblank⟩, ?_⟩
    intro r hr
    simp only [dashEntry, Option.some.injEq] at hr
    subst hr
    exact ⟨hblank, hm, hblank⟩
  have h := unmarshalText_entries quote { Ranges := [] } [dashEntry n m] (by simp)
    (by simpa using hwf)
  simpa [List.intercalate, dashEntry, PortEntry.text, PaddedRun.text, PortEntry.range] using h

/-- C8, as the code has it: for digit runs `N` and `M` whose values fit in an
`int`, with the value of `M` not zero, the text `N-M` is accepted on an empty
enumeration and the result matches a port `p` iff `N <= p <= M`. -/
theorem dash_token_inclusive (quote : List Char → String) (n m : List Char)
    (hn : IsDigitRun n) (hm : IsDigitRun m)
    (hN : digitsValue n ≤ maxInt) (hM : digitsValue m ≤ maxInt) (hM0 : digitsValue m ≠ 0)
    (port : Int) :
    (PortEnum.UnmarshalText quote { Ranges := [] } (n ++ '-' :: m)).2 = none ∧
      ((PortEnum.UnmarshalText quote { Ranges := [] } (n ++ '-' :: m)).1.Matches port = true ↔
        (digitsValue n : Int) ≤ port ∧ port ≤ (digitsValue m : Int)) := by
  rw [unmarshalText_dashEntry quote n m hn hm, atoi_digitRun_fst n hn hN,
    atoi_digitRun_fst m hm hM]
  refine ⟨rfl, ?_⟩
  rw [matches_iff_exists_holds]
  have hne : (digitsValue m : Int) ≠ 0 := by exact_mod_cast hM0
  simp [holds_iff, hne]

theorem dash_token_inclusive_witness :
    IsDigitRun ['8', '0', '0', '0'] ∧ IsDigitRun ['8', '9', '9', '9'] ∧
      digitsValue ['8', '9', '9', '9'] = 8999 ∧
      (PortEnum.UnmarshalText plainQuote { Ranges := [] }
          (['8', '0', '0', '0'] ++ '-' :: ['8', '9', '9', '9'])).2 = none ∧
      ((PortEnum.UnmarshalText plainQuote { Ranges := [] }
          (['8', '0', '0', '0'] ++ '-' :: ['8', '9', '9', '9'])).1.Matches 8080 = true ↔
        (digitsValue ['8', '0', '0', '0'] : Int) ≤ 8080 ∧
          (8080 : Int) ≤ (digitsValue ['8', '9', '9', '9'] : Int)) :=
  ⟨by decide, by decide, by decide,
    dash_token_inclusive plainQuote ['8', '0', '0', '0'] ['8', '9', '9', '9']
      (by decide) (by decide) (by decide) (by decide) (by decide) 8080⟩

/-- C8, as stated, fails: the token `5-0` is accepted and stored with `End = 0`,
the mark of a single port, so the result matches port 5 although `5 <= 5 <= 0`
is false. -/
theorem dash_zero_token_matches_start :
    PortEnum.UnmarshalText plainQuote { Ranges := [] } ['5', '-', '0'] =
        ({ Ranges := [{ Start := 5, End := 0 }] }, none) ∧
      (PortEnum.UnmarshalText plainQuote { Ranges := [] } ['5', '-', '0']).1.Matches 5 = true ∧
      ¬ ((digitsValue ['5'] : Int) ≤ 5 ∧ (5 : Int) ≤ (digitsValue ['0'] : Int)) := by
  decide

/-! ## White space -/

theorem stripBlank_append (a b : List Char) :
    stripBlank (a ++ b) = stripBlank a ++ stripBlank b := by
  simp [stripBlank]

theorem stripBlank_blank (w : List Char) (h : IsBlank w) : stripBlank w = [] := by
  unfold stripBlank
  rw [List.filter_eq_nil_iff]
  intro c hc
  simp [h c hc]

theorem stripBlank_digits (d : List Char) (h : ∀ c ∈ d, IsDigitChar c) : stripBlank d = d := by
  unfold stripBlank
  rw [List.filter_eq_self]
  intro c hc
  simp [(digitChar_facts c (h c hc)).2.2.2.2.2]

theorem stripBlank_padded (r : PaddedRun) (h : r.wellFormed) :
    stripBlank r.text = r.strip.text ∧ r.strip.wellFormed := by
  obtain ⟨hb, ⟨hne, hd⟩, ha⟩ := h
  constructor
  · simp [PaddedRun.text, PaddedRun.strip, stripBlank_append, stripBlank_blank _ hb,
      stripBlank_blank _ ha, stripBlank_digits _ hd]
  · exact ⟨by simp [PaddedRun.strip, IsBlank], ⟨hne, hd⟩, by simp [PaddedRun.strip, IsBlank]⟩

theorem stripBlank_entry (e : PortEntry) (h : e.wellFormed) :
    stripBlank e.text = e.strip.text ∧ e.strip.wellFormed ∧ e.strip.range = e.range := by
  obtain ⟨h1, h2⟩ := h
  cases e with
  | mk first second =>
    obtain ⟨ht1, hw1⟩ := stripBlank_padded first h1
    cases second with
    | none =>
      refine ⟨ht1, ⟨hw1, by simp [PortEntry.strip]⟩, rfl⟩
    | some r =>
      obtain ⟨ht2, hw2⟩ := stripBlank_padded r (h2 r rfl)
      refine ⟨?_, ⟨hw1, ?_⟩, rfl⟩
      · have hdash : stripBlank ['-'] = ['-'] := by decide
        have hsplit : first.text ++ '-' :: r.text = first.text ++ (['-'] ++ r.text) := rfl
        simp only [PortEntry.text, PortEntry.strip, Option.map_some']
        rw [hsplit, stripBlank_append, stripBlank_append, ht1, ht2, hdash]
        rfl
      · intro r2 hr2
        simp only [PortEntry.strip, Option.map_some', Option.some.injEq] at hr2
        exact hr2 ▸ hw2

theorem stripBlank_joined (es : List PortEntry) (hes : ∀ e ∈ es, e.wellFormed) :
    stripBlank ((es.map (fun e => ',' :: e.text)).flatten) =
      ((es.map PortEntry.strip).map (fun e => ',' :: e.text)).flatten := by
  induction es with
  | nil => rfl
  | cons e es ih =>
    have hcomma : stripBlank [','] = [','] := by decide
    have hsplit : ',' :: e.text = [','] ++ e.text := rfl
    simp only [List.map_cons, List.flatten_cons]
    rw [stripBlank_append, hsplit, stripBlank_append, hcomma,
      (stripBlank_entry e (hes e (by simp))).1, ih (fun x hx => hes x (by simp [hx]))]
    rfl

theorem stripBlank_intercalate (es : List PortEntry) (hes : ∀ e ∈ es, e.wellFormed) :
    stripBlank (List.intercalate [','] (es.map PortEntry.text)) =
      List.intercalate [','] ((es.map PortEntry.strip).map PortEntry.text) := by
  cases es with
  | nil => rfl
  | cons e es =>
    simp only [List.map_cons, intercalate_cons_eq, List.map_map, Function.comp_def]
    rw [stripBlank_append, (stripBlank_entry e (hes e (by simp))).1]
    have h := stripBlank_joined es (fun x hx => hes x (by simp [hx]))
    simp only [List.map_map, Function.comp_def] at h
    rw [h]

/-- C10: the port grammar tolerates white space. When `UnmarshalText` accepts
a text, it also accepts the text without its white-space characters, and both
leave the same ranges in an empty enumeration. -/
theorem unmarshalText_stripBlank (quote : List Char → String) (t : List Char)
    (h : (PortEnum.UnmarshalText quote { Ranges := [] } t).2 = none) :
    (PortEnum.UnmarshalText quote { Ranges := [] } (stripBlank t)).2 = none ∧
      (PortEnum.UnmarshalText quote { Ranges := [] } (stripBlank t)).1.Ranges =
        (PortEnum.UnmarshalText quote { Ranges := [] } t).1.Ranges := by
  obtain ⟨es, hne, hes, rfl⟩ := (unmarshalText_snd_eq_none_iff quote _ t).1 h
  have hes2 : ∀ e ∈ es.map PortEntry.strip, e.wellFormed := by
    intro e he
    obtain ⟨e0, he0, rfl⟩ := List.mem_map.1 he
    exact (stripBlank_entry e0 (hes e0 he0)).2.1
  rw [stripBlank_intercalate es hes,
    unmarshalText_entries quote _ (es.map PortEntry.strip) (by simpa using hne) hes2,
    unmarshalText_entries quote _ es hne hes]
  refine ⟨rfl, ?_⟩
  simp only [List.nil_append, List.map_map]
  apply List.map_congr_left
  intro e he
  exact (stripBlank_entry e (hes e he)).2.2

theorem unmarshalText_stripBlank_witness :
    (PortEnum.UnmarshalText plainQuote { Ranges := [] } " 80 ,\t8000 - 8999\n".toList).2 = none ∧
      stripBlank " 80 ,\t8000 - 8999\n".toList = "80,8000-8999".toList ∧
      (PortEnum.UnmarshalText plainQuote { Ranges := [] }
          (stripBlank " 80 ,\t8000 - 8999\n".toList)).2 = none ∧
      (PortEnum.UnmarshalText plainQuote { Ranges := [] }
          (stripBlank " 80 ,\t8000 - 8999\n".toList)).1.Ranges =
        (PortEnum.UnmarshalText plainQuote { Ranges := [] }
          " 80 ,\t8000 - 8999\n".toList).1.Ranges :=
  ⟨by decide, by decide,
    unmarshalText_stripBlank plainQuote " 80 ,\t8000 - 8999\n".toList (by decide)⟩

/-! ## The empty criteria set -/

/-- C11: the empty criteria set is valid and no port is of interest to it. -/
theorem empty_criteria_valid_and_matches_nothing :
    DefinitionCriteria.Validate [] = none ∧
      ∀ port : Int, DefinitionCriteria.PortOfInterest [] port = false :=
  ⟨rfl, fun _ => rfl⟩

/-! ## Receiver of `UnmarshalText` -/

theorem unmarshalText_ranges (quote : List Char → String) (p : PortEnum) (t : List Char)
    (h : (PortEnum.UnmarshalText quote p t).2 = none) :
    (PortEnum.UnmarshalText quote p t).1.Ranges = p.Ranges ++ (Split t ',').map parseEntry := by
  unfold PortEnum.UnmarshalText at h ⊢
  cases hm : MatchString validPortEnum t
  · simp [hm] at h
  · simp only [Bool.true_eq_false, if_false, foldl_append_ranges]

theorem unmarshalText_accept_irrelevant (quote : List Char → String) (p q : PortEnum)
    (t : List Char) :
    (PortEnum.UnmarshalText quote p t).2 = none ↔ (PortEnum.UnmarshalText quote q t).2 = none := by
  rw [unmarshalText_snd_eq_none_iff, unmarshalText_snd_eq_none_iff]

/-- C19: `UnmarshalText` accumulates. On an accepted text the ranges after the
call are the ranges before it followed by the ranges that the text yields on an
empty enumeration, so every port matched before the call is matched after it. -/
theorem unmarshalText_accumulates (quote : List Char → String) (p : PortEnum) (t : List Char)
    (h : (PortEnum.UnmarshalText quote p t).2 = none) :
    (PortEnum.UnmarshalText quote p t).1.Ranges =
        p.Ranges ++ (PortEnum.UnmarshalText quote { Ranges := [] } t).1.Ranges ∧
      ∀ port : Int, p.Matches port = true →
        (PortEnum.UnmarshalText quote p t).1.Matches port = true := by
  have h0 := (unmarshalText_accept_irrelevant quote p { Ranges := [] } t).1 h
  have hr := unmarshalText_ranges quote p t h
  have hr0 := unmarshalText_ranges quote { Ranges := [] } t h0
  rw [List.nil_append] at hr0
  refine ⟨by rw [hr, hr0], ?_⟩
  intro port hport
  have hsplit : (PortEnum.UnmarshalText quote p t).1 =
      PortEnum.mk (p.Ranges ++ (Split t ',').map parseEntry) := by
    cases hres : (PortEnum.UnmarshalText quote p t).1 with
    | mk rs =>
      rw [hres] at hr
      exact congrArg PortEnum.mk hr
  rw [hsplit, matches_append]
  have hp : (PortEnum.mk p.Ranges).Matches port = true := hport
  simp [hp]

theorem unmarshalText_accumulates_witness :
    (PortEnum.UnmarshalText plainQuote { Ranges := [⟨80, 0⟩] } "443,8000-8999".toList).2 = none ∧
      ((PortEnum.UnmarshalText plainQuote { Ranges := [⟨80, 0⟩] } "443,8000-8999".toList).1.Ranges =
          [⟨80, 0⟩] ++
            (PortEnum.UnmarshalText plainQuote { Ranges := [] } "443,8000-8999".toList).1.Ranges ∧
        ∀ port : Int, (PortEnum.mk [⟨80, 0⟩]).Matches port = true →
          (PortEnum.UnmarshalText plainQuote { Ranges := [⟨80, 0⟩] }
            "443,8000-8999".toList).1.Matches port = true) :=
  ⟨by decide,
    unmarshalText_accumulates plainQuote { Ranges := [⟨80, 0⟩] } "443,8000-8999".toList
      (by decide)⟩

/-- C20: a rejected text leaves the enumeration untouched. -/
theorem unmarshalText_rejected_unchanged (quote : List Char → String) (p : PortEnum)
    (t : List Char) (h : (PortEnum.UnmarshalText quote p t).2 ≠ none) :
    (PortEnum.UnmarshalText quote p t).1 = p := by
  unfold PortEnum.UnmarshalText at h ⊢
  cases hm : MatchString validPortEnum t
  · simp
  · simp [hm] at h

theorem unmarshalText_rejected_unchanged_witness :
    (PortEnum.UnmarshalText plainQuote { Ranges := [⟨80, 0⟩] } "80-".toList).2 ≠ none ∧
      (PortEnum.UnmarshalText plainQuote { Ranges := [⟨80, 0⟩] } "80-".toList).1 =
        { Ranges := [⟨80, 0⟩] } :=
  ⟨by decide,
    unmarshalText_rejected_unchanged plainQuote { Ranges := [⟨80, 0⟩] } "80-".toList
      (by decide)⟩

/-! ## Conversion errors -/

/-- C17 fails on the code: a run of twenty nines is accepted by the pattern,
`strconv.Atoi` fails on it with a range error, and the stored `Start` is the
largest `int`, not the value of the digit run. -/
theorem atoi_fails_on_accepted_text :
    MatchString validPortEnum twentyNines = true ∧
      Atoi (TrimSpace ((Split twentyNines '-').headD [])) =
        (9223372036854775807, some NumError.outOfRange) ∧
      PortEnum.UnmarshalText plainQuote { Ranges := [] } twentyNines =
        ({ Ranges := [{ Start := 9223372036854775807, End := 0 }] }, none) ∧
      digitsValue twentyNines = 99999999999999999999 := by
  decide

/-! ## Empty glob text -/

/-- C18: `UnmarshalText` with an empty text returns `nil` and leaves the
attribute unset, whatever it held before: `IsSet` is false and `MatchString`
is true for every string. -/
theorem globAttr_unmarshal_empty (compile : List Char → Except String Glob)
    (quote : List Char → String) (p : GlobAttr) :
    (GlobAttr.UnmarshalText compile quote p []).2 = none ∧
      (GlobAttr.UnmarshalText compile quote p []).1.IsSet = false ∧
      ∀ s : String, (GlobAttr.UnmarshalText compile quote p []).1.MatchString s = true :=
  ⟨rfl, rfl, fun _ => rfl⟩

/-! ## Reversed ranges -/

/-- C21: a reversed range is accepted and matches nothing. For digit runs `N`
and `M` whose values fit in an `int`, with `N > M >= 1`, `UnmarshalText` of the
text `N-M` on an empty enumeration returns no error and stores
`{Start: N, End: M}`, and the result matches no port. -/
theorem reversed_range_matches_nothing (quote : List Char → String) (n m : List Char)
    (hn : IsDigitRun n) (hm : IsDigitRun m) (hN : digitsValue n ≤ maxInt)
    (hM : 1 ≤ digitsValue m) (hrev : digitsValue m < digitsValue n) :
    PortEnum.UnmarshalText quote { Ranges := [] } (n ++ '-' :: m) =
        ({ Ranges := [{ Start := (digitsValue n : Int), End := (digitsValue m : Int) }] },
          none) ∧
      ∀ port : Int,
        (PortEnum.UnmarshalText quote { Ranges := [] } (n ++ '-' :: m)).1.Matches port =
          false := by
  have hres : PortEnum.UnmarshalText quote { Ranges := [] } (n ++ '-' :: m) =
      ({ Ranges := [{ Start := (digitsValue n : Int), End := (digitsValue m : Int) }] },
        none) := by
    rw [unmarshalText_dashEntry quote n m hn hm, atoi_digitRun_fst n hn hN,
      atoi_digitRun_fst m hm (by omega)]
  refine ⟨hres, ?_⟩
  intro port
  rw [hres, Bool.eq_false_iff]
  intro hmatch
  obtain ⟨r, hr, hholds⟩ := (matches_iff_exists_holds _ port).1 hmatch
  simp only [List.mem_singleton] at hr
  subst hr
  rcases (holds_iff _ port).1 hholds with ⟨hz, _⟩ | ⟨_, hlo, hhi⟩
  · simp only at hz
    omega
  · simp only at hlo hhi
    omega

theorem reversed_range_matches_nothing_witness :
    IsDigitRun ['9', '0'] ∧ IsDigitRun ['8', '0'] ∧ digitsValue ['9', '0'] = 90 ∧
      digitsValue ['8', '0'] = 80 ∧
      (PortEnum.UnmarshalText plainQuote { Ranges := [] } (['9', '0'] ++ '-' :: ['8', '0']) =
          ({ Ranges := [⟨(digitsValue ['9', '0'] : Int), (digitsValue ['8', '0'] : Int)⟩] },
            none) ∧
        ∀ port : Int,
          (PortEnum.UnmarshalText plainQuote { Ranges := [] }
            (['9', '0'] ++ '-' :: ['8', '0'])).1.Matches port = false) :=
  ⟨by decide, by decide, by decide, by decide,
    reversed_range_matches_nothing plainQuote ['9', '0'] ['8', '0'] (by decide) (by decide)
      (by decide) (by decide) (by decide)⟩

end services

/-! # Route classification -/

namespace transform

open services

theorem segmentsMatch_iff (ts ss : List (List Char)) :
    segmentsMatch ts ss = true ↔
      ts.length = ss.length ∧
        ∀ (i : Nat) (a b : List Char), ts[i]? = some a → ss[i]? = some b →
          isParameter a = true ∨ a = b := by
  induction ts generalizing ss with
  | nil =>
    cases ss with
    | nil => simp [segmentsMatch]
    | cons s ss => simp [segmentsMatch]
  | cons t ts ih =>
    cases ss with
    | nil => simp [segmentsMatch]
    | cons s ss =>
      simp only [segmentsMatch, Bool.and_eq_true, Bool.or_eq_true, beq_iff_eq, ih,
        List.length_cons, Nat.add_right_cancel_iff]
      constructor
      · rintro ⟨h0, hlen, hrest⟩
        refine ⟨hlen, ?_⟩
        intro i a b ha hb
        cases i with
        | zero =>
          simp only [List.getElem?_cons_zero, Option.some.injEq] at ha hb
          subst ha hb
          exact h0
        | succ i =>
          simp only [List.getElem?_cons_succ] at ha hb
          exact hrest i a b ha hb
      · rintro ⟨hlen, hall⟩
        refine ⟨hall 0 t s (by simp) (by simp), hlen, ?_⟩
        intro i a b ha hb
        exact hall (i + 1) a b (by simpa using ha) (by simpa using hb)

theorem templateMatches_iff_fits (template path : List Char) :
    templateMatches template path = true ↔ TemplateFits template path :=
  segmentsMatch_iff (segments template) (segments path)

theorem findTemplate_first (patterns : List (List Char)) (path : List Char) (i : Nat)
    (t : List Char) (hi : patterns[i]? = some t) (hfit : TemplateFits t path)
    (hfirst : ∀ (j : Nat) (u : List Char), j < i → patterns[j]? = some u →
      ¬ TemplateFits u path) :
    findTemplate patterns path = some t := by
  induction patterns generalizing i with
  | nil => simp at hi
  | cons u rest ih =>
    unfold findTemplate
    cases i with
    | zero =>
      simp only [List.getElem?_cons_zero, Option.some.injEq] at hi
      subst hi
      simp [List.find?, (templateMatches_iff_fits u path).2 hfit]
    | succ i =>
      have hu : templateMatches u path = false := by
        have := hfirst 0 u (by omega) (by simp)
        rw [← templateMatches_iff_fits] at this
        simpa using this
      simp only [List.find?, hu]
      exact ih i (by simpa using hi)
        (fun j v hj hv => hfirst (j + 1) v (by omega) (by simpa using hv))

theorem findTemplate_none (patterns : List (List Char)) (path : List Char)
    (hnone : ∀ t ∈ patterns, ¬ TemplateFits t path) : findTemplate patterns path = none := by
  unfold findTemplate
  rw [List.find?_eq_none]
  intro t ht
  have := hnone t ht
  rw [← templateMatches_iff_fits] at this
  simpa using this

theorem no_fit_of_findTemplate_none (patterns : List (List Char)) (path : List Char)
    (h : findTemplate patterns path = none) : ∀ t ∈ patterns, ¬ TemplateFits t path := by
  unfold findTemplate at h
  rw [List.find?_eq_none] at h
  intro t ht hfit
  exact h t ht ((templateMatches_iff_fits t path).2 hfit)

/-- C12: when the route of a record is not set and some template fits its path,
the record gets the text of the first fitting template, in list order, as its
route, whatever the unmatch policy; its other fields and the classifier are
unchanged. -/
theorem first_matching_template_is_route (looksGenerated : List Char → Bool) (r : Router)
    (s : Span) (i : Nat) (t : List Char) (hroute : s.Route = [])
    (hi : r.config.Patterns[i]? = some t) (hfit : TemplateFits t s.Path)
    (hfirst : ∀ (j : Nat) (u : List Char), j < i → r.config.Patterns[j]? = some u →
      ¬ TemplateFits u s.Path) :
    r.classify looksGenerated s = ({ s with Route := t }, r) := by
  unfold Router.classify
  rw [findTemplate_first r.config.Patterns s.Path i t hi hfit hfirst]
  simp [hroute]

theorem first_matching_template_is_route_witness :
    (userRouter UnmatchType.UnmatchUnset).classify (fun _ => false) ⟨"/user/1234".toList, [], 0⟩ =
        (⟨"/user/1234".toList, "/user/:id".toList, 0⟩, userRouter UnmatchType.UnmatchUnset) ∧
      (userRouter UnmatchType.UnmatchHeuristic).classify (fun _ => false)
          ⟨"/user/1234".toList, [], 0⟩ =
        (⟨"/user/1234".toList, "/user/:id".toList, 0⟩, userRouter UnmatchType.UnmatchHeuristic) ∧
      (userRouter (UnmatchType.other "invalid_value")).classify (fun _ => false)
          ⟨"/user/1234".toList, [], 0⟩ =
        (⟨"/user/1234".toList, "/user/:id".toList, 0⟩,
          userRouter (UnmatchType.other "invalid_value")) :=
  ⟨first_matching_template_is_route (fun _ => false) (userRouter UnmatchType.UnmatchUnset)
      ⟨"/user/1234".toList, [], 0⟩ 0 "/user/:id".toList rfl rfl
      ((templateMatches_iff_fits _ _).1 (by decide)) (fun j u hj => absurd hj (by omega)),
    first_matching_template_is_route (fun _ => false) (userRouter UnmatchType.UnmatchHeuristic)
      ⟨"/user/1234".toList, [], 0⟩ 0 "/user/:id".toList rfl rfl
      ((templateMatches_iff_fits _ _).1 (by decide)) (fun j u hj => absurd hj (by omega)),
    first_matching_template_is_route (fun _ => false) (userRouter (UnmatchType.other "invalid_value"))
      ⟨"/user/1234".toList, [], 0⟩ 0 "/user/:id".toList rfl rfl
      ((templateMatches_iff_fits _ _).1 (by decide)) (fun j u hj => absurd hj (by omega))⟩

/-- C13: when the route of a record is not set and no template fits its path,
the unmatch policy alone decides the route: empty under `unset`, the token
`/**` under `wildcard`, the path itself under `literal`. -/
theorem unmatched_route_by_policy (looksGenerated : List Char → Bool) (r : Router) (s : Span)
    (hroute : s.Route = []) (hnone : ∀ t ∈ r.config.Patterns, ¬ TemplateFits t s.Path) :
    (r.config.Unmatch = UnmatchType.UnmatchUnset →
      r.classify looksGenerated s = ({ s with Route := [] }, r)) ∧
    (r.config.Unmatch = UnmatchType.UnmatchWildcard →
      r.classify looksGenerated s = ({ s with Route := ['/', '*', '*'] }, r)) ∧
    (r.config.Unmatch = UnmatchType.UnmatchPath →
      r.classify looksGenerated s = ({ s with Route := s.Path }, r)) := by
  have hfind := findTemplate_none r.config.Patterns s.Path hnone
  refine ⟨?_, ?_, ?_⟩ <;> intro hpol <;>
    simp [Router.classify, hroute, hfind, Router.unmatched, hpol, wildcardRoute]

theorem unmatched_route_by_policy_witness :
    (userRouter UnmatchType.UnmatchUnset).classify (fun _ => false) ⟨"/some/path".toList, [], 0⟩ =
        (⟨"/some/path".toList, [], 0⟩, userRouter UnmatchType.UnmatchUnset) ∧
      (userRouter UnmatchType.UnmatchWildcard).classify (fun _ => false)
          ⟨"/some/path".toList, [], 0⟩ =
        (⟨"/some/path".toList, "/**".toList, 0⟩, userRouter UnmatchType.UnmatchWildcard) ∧
      (userRouter UnmatchType.UnmatchPath).classify (fun _ => false) ⟨"/some/path".toList, [], 0⟩ =
        (⟨"/some/path".toList, "/some/path".toList, 0⟩, userRouter UnmatchType.UnmatchPath) :=
  ⟨(unmatched_route_by_policy (fun _ => false) (userRouter UnmatchType.UnmatchUnset)
      ⟨"/some/path".toList, [], 0⟩ rfl
      (no_fit_of_findTemplate_none _ _ (by decide))).1 rfl,
    (unmatched_route_by_policy (fun _ => false) (userRouter UnmatchType.UnmatchWildcard)
      ⟨"/some/path".toList, [], 0⟩ rfl
      (no_fit_of_findTemplate_none _ _ (by decide))).2.1 rfl,
    (unmatched_route_by_policy (fun _ => false) (userRouter UnmatchType.UnmatchPath)
      ⟨"/some/path".toList, [], 0⟩ rfl
      (no_fit_of_findTemplate_none _ _ (by decide))).2.2 rfl⟩

/-! ## Unrecognised policy values -/

theorem classify_unset_like (looksGenerated : List Char → Bool) (r : Router) (s : Span)
    (hpol : r.config.Unmatch = UnmatchType.UnmatchUnset ∨
      ∃ v, r.config.Unmatch = UnmatchType.other v) :
    r.classify looksGenerated s =
      (if s.Route ≠ [] then s
        else match findTemplate r.config.Patterns s.Path with
          | some t => { s with Route := t }
          | none => { s with Route := [] }, r) := by
  unfold Router.classify
  by_cases hroute : s.Route ≠ []
  · simp [hroute]
  · simp only [hroute, if_false]
    cases findTemplate r.config.Patterns s.Path with
    | some t => rfl
    | none =>
      rcases hpol with hpol | ⟨v, hpol⟩ <;> simp [Router.unmatched, hpol]

theorem classifyBatch_unset_like (looksGenerated : List Char → Bool) (r r2 : Router)
    (spans : List Span) (hpat : r.config.Patterns = r2.config.Patterns)
    (hpol : r.config.Unmatch = UnmatchType.UnmatchUnset ∨
      ∃ v, r.config.Unmatch = UnmatchType.other v)
    (hpol2 : r2.config.Unmatch = UnmatchType.UnmatchUnset ∨
      ∃ v, r2.config.Unmatch = UnmatchType.other v) :
    (r.classifyBatch looksGenerated spans).1 = (r2.classifyBatch looksGenerated spans).1 := by
  induction spans with
  | nil => rfl
  | cons s rest ih =>
    simp only [Router.classifyBatch, classify_unset_like looksGenerated r s hpol,
      classify_unset_like looksGenerated r2 s hpol2, hpat, ih]

/-- C15: a policy value that is not recognised is treated like `unset`.
Building the classifier succeeds, every batch gets the routes it gets under
`unset`, and a record whose route is not set and whose path no template fits
is left with the empty route. -/
theorem unrecognized_policy_as_unset (looksGenerated : List Char → Bool) (v : String)
    (cfg : RoutesConfig) :
    (∃ r : Router,
      RoutesProvider { cfg with Unmatch := UnmatchType.other v } = Except.ok r) ∧
    ∀ r r2 : Router,
      RoutesProvider { cfg with Unmatch := UnmatchType.other v } = Except.ok r →
      RoutesProvider { cfg with Unmatch := UnmatchType.UnmatchUnset } = Except.ok r2 →
      (∀ spans : List Span,
        (r.classifyBatch looksGenerated spans).1 = (r2.classifyBatch looksGenerated spans).1) ∧
      (∀ s : Span, s.Route = [] → (∀ t ∈ cfg.Patterns, ¬ TemplateFits t s.Path) →
        (r.classify looksGenerated s).1 = { s with Route := [] }) := by
  refine ⟨⟨_, rfl⟩, ?_⟩
  intro r r2 hr hr2
  simp only [RoutesProvider, Except.ok.injEq] at hr hr2
  subst hr hr2
  refine ⟨?_, ?_⟩
  · intro spans
    exact classifyBatch_unset_like looksGenerated _ _ spans rfl (Or.inr ⟨v, rfl⟩) (Or.inl rfl)
  · intro s hroute hnone
    rw [classify_unset_like looksGenerated _ s (Or.inr ⟨v, rfl⟩)]
    simp [hroute, findTemplate_none cfg.Patterns s.Path hnone]

theorem unrecognized_policy_as_unset_witness :
    RoutesProvider (userConfig (UnmatchType.other "invalid_value")) =
        Except.ok (userRouter (UnmatchType.other "invalid_value")) ∧
      ((userRouter (UnmatchType.other "invalid_value")).classify (fun _ => false)
        ⟨"/some/path".toList, [], 0⟩).1 = ⟨"/some/path".toList, [], 0⟩ ∧
      ((userRouter (UnmatchType.other "invalid_value")).classifyBatch (fun _ => false)
          [⟨"/user/1234".toList, [], 0⟩, ⟨"/some/path".toList, [], 0⟩]).1 =
        ((userRouter UnmatchType.UnmatchUnset).classifyBatch (fun _ => false)
          [⟨"/user/1234".toList, [], 0⟩, ⟨"/some/path".toList, [], 0⟩]).1 :=
  ⟨rfl,
    ((unrecognized_policy_as_unset (fun _ => false) "invalid_value"
        (userConfig (UnmatchType.other "invalid_value"))).2
      (userRouter (UnmatchType.other "invalid_value")) (userRouter UnmatchType.UnmatchUnset)
      rfl rfl).2 ⟨"/some/path".toList, [], 0⟩ rfl
      (no_fit_of_findTemplate_none _ _ (by decide)),
    ((unrecognized_policy_as_unset (fun _ => false) "invalid_value"
        (userConfig (UnmatchType.other "invalid_value"))).2
      (userRouter (UnmatchType.other "invalid_value")) (userRouter UnmatchType.UnmatchUnset)
      rfl rfl).1 [⟨"/user/1234".toList, [], 0⟩, ⟨"/some/path".toList, [], 0⟩]⟩

end transform
